import Mathlib

/-!
Verification development for the GRAMPS-XML conversion pipeline in
scripts/convert_full_gramps.py.  The Python source is shallowly embedded:
XML elements become the inductive type XmlElem, Python dicts become ordered
association lists, functions that can raise become Except-valued functions,
and the recursive tree builder (which terminates through a node cache) is
embedded with an explicit fuel parameter together with a proof that fuel
linear in the number of person records always suffices.
-/

/-! ## Python-style string helpers

Python truthiness on strings: the empty string is falsy.  Python str.strip
with no argument removes leading and trailing whitespace.  These helpers are
written over List Char so that every definition reduces inside the kernel.
-/

/-- Python str.strip on the character list of a string. -/
def pyTrimL (l : List Char) : List Char :=
  ((l.dropWhile Char.isWhitespace).reverse.dropWhile Char.isWhitespace).reverse

/-- Python str.strip. -/
def pyStrip (s : String) : String := String.mk (pyTrimL s.data)

/-- Python expression a or b where a and b are strings. -/
def pyOrS (a b : String) : String := if a = "" then b else a

/-- Python expression a or b where a is an optional string and b a string. -/
def pyOrOS (a : Option String) (b : String) : String :=
  match a with
  | none => b
  | some s => pyOrS s b

/-- Python expression a or b where both sides are optional strings. -/
def pyOrOO (a b : Option String) : Option String :=
  match a with
  | none => b
  | some s => if s = "" then b else some s

/-- Python truthiness of an optional string: None and the empty string are falsy. -/
def pyTruthyO : Option String → Bool
  | none => false
  | some s => s ≠ ""

/-- Embeds the Python pattern `t.strip() if t else None` on an optional text. -/
def pyTextStrip : Option String → Option String
  | none => none
  | some t => if t = "" then none else some (pyStrip t)

/-- Embeds the Python pattern `t.strip() if t and t.strip() else None`:
the trimmed text when it is non-blank, otherwise None. -/
def pyStripNB : Option String → Option String
  | none => none
  | some t =>
    if t = "" then none
    else if pyStrip t = "" then none else some (pyStrip t)

/-! ## Ordered association lists (Python dicts)

Python dicts preserve insertion order; assignment to an existing key keeps
its position, assignment to a new key appends.  Lookup is by key.
-/

/-- First value stored under key h, as Python d.get(h). -/
def alistFind (h : String) : List (String × α) → Option α
  | [] => none
  | kv :: rest => if kv.1 = h then some kv.2 else alistFind h rest

/-- Python test `h in d`. -/
def alistContains (h : String) (m : List (String × α)) : Bool :=
  (alistFind h m).isSome

/-- In-place update of the value stored under a key (Python mutation of d[h]). -/
def alistUpdate (h : String) (f : α → α) : List (String × α) → List (String × α)
  | [] => []
  | kv :: rest =>
    if kv.1 = h then (kv.1, f kv.2) :: rest else kv :: alistUpdate h f rest

/-- Python dict assignment d[k] = v: replace in place if the key exists,
append otherwise. -/
def dictInsert (m : List (String × α)) (k : String) (v : α) : List (String × α) :=
  if alistContains k m then alistUpdate k (fun _ => v) m else m ++ [(k, v)]

/-! ## Decimal rendering of naturals (Python f-string interpolation)

The synthesized record handles interpolate a decimal number into a string.
A fuel-indexed helper keeps the definition structurally recursive.
-/

def toDecCore : Nat → Nat → List Char
  | 0, _ => []
  | fuel + 1, n =>
    if n < 10 then [Nat.digitChar n]
    else toDecCore fuel (n / 10) ++ [Nat.digitChar (n % 10)]

/-- Decimal rendering of a natural number, as Python str(n). -/
def natStr (n : Nat) : String := String.mk (toDecCore (n + 1) n)

/-! ## XML elements and the lossless raw form

xml.etree Element: a tag, an attribute dict, optional text, ordered children.
PyVal is the dynamic value universe of the dicts produced by elem_to_dict:
strings, dicts and lists.
-/

inductive XmlElem where
  | mk (tag : String) (attrib : List (String × String)) (text : Option String)
      (children : List XmlElem)

def XmlElem.tag : XmlElem → String
  | .mk t _ _ _ => t

def XmlElem.attrib : XmlElem → List (String × String)
  | .mk _ a _ _ => a

def XmlElem.text : XmlElem → Option String
  | .mk _ _ tx _ => tx

def XmlElem.children : XmlElem → List XmlElem
  | .mk _ _ _ cs => cs

inductive PyVal where
  | pstr : String → PyVal
  | pdict : List (String × PyVal) → PyVal
  | plist : List PyVal → PyVal

/-- strip_ns: strip a leading namespace, i.e. everything up to and including
the first closing brace, from an element tag.  (In the source the argument is
optional because Element.tag is typed Optional; an actual element always has
a string tag, which is the case embedded here.) -/
def afterBrace : List Char → Option (List Char)
  | [] => none
  | c :: cs => if c = '\x7d' then some cs else afterBrace cs

def strip_ns (tag : String) : String :=
  match afterBrace tag.data with
  | some rest => String.mk rest
  | none => tag

/-! Python element iteration el.iter(): the element itself followed by all
descendants in document order. -/
mutual
def iterSelf : XmlElem → List XmlElem
  | .mk t a tx cs => .mk t a tx cs :: iterList cs
def iterList : List XmlElem → List XmlElem
  | [] => []
  | c :: cs => iterSelf c ++ iterList cs
end

/-- The dict key used for a child element inside elem_to_dict:
the stripped tag, or "unknown" when that is empty or absent. -/
def childKey (c : XmlElem) : String := pyOrS (strip_ns c.tag) "unknown"

/-- Python d.setdefault(k, []).append(v): if k is absent, store [v]; if k
holds a list, append; if k holds a dict or a string (the reserved keys), the
append is an AttributeError. -/
def setdefaultAppend (d : List (String × PyVal)) (k : String) (v : PyVal) :
    Except String (List (String × PyVal)) :=
  match d with
  | [] => .ok [(k, .plist [v])]
  | (k2, v2) :: rest =>
    if k2 = k then
      match v2 with
      | .plist l => .ok ((k2, .plist (l ++ [v])) :: rest)
      | _ => .error "AttributeError: append on non-list"
    else
      (setdefaultAppend rest k v).map (fun r => (k2, v2) :: r)

/-- The dict of an element before its children are folded in: "_attrs" when
attributes exist, then "_text" when the trimmed text is non-blank. -/
def elemBase (attrib : List (String × String)) (text : Option String) :
    List (String × PyVal) :=
  let d0 : List (String × PyVal) :=
    if attrib.isEmpty then []
    else [("_attrs", PyVal.pdict (attrib.map (fun kv => (kv.1, PyVal.pstr kv.2))))]
  match pyStripNB text with
  | none => d0
  | some t => d0 ++ [("_text", PyVal.pstr t)]

/-! elem_to_dict: lossless dict form of an element.  Attributes go under
"_attrs", non-blank trimmed text under "_text", and children are grouped by
stripped tag into ordered lists, via setdefault(tag, []).append. -/
mutual
def elem_to_dict : XmlElem → Except String (List (String × PyVal))
  | .mk _ attrib text cs => elem_fold (elemBase attrib text) cs
termination_by structural e => e
def elem_fold (d : List (String × PyVal)) : List XmlElem → Except String (List (String × PyVal))
  | [] => .ok d
  | c :: cs =>
    match elem_to_dict c with
    | .error e => .error e
    | .ok cd =>
      match setdefaultAppend d (childKey c) (.pdict cd) with
      | .error e => .error e
      | .ok d2 => elem_fold d2 cs
termination_by structural cs => cs
end

/-- extract_handle: the handle attribute, else the id attribute, else the
first direct child tagged handle or id carrying non-blank text. -/
def extract_handle (e : XmlElem) : Option String :=
  match alistFind "handle" e.attrib with
  | some v => some v
  | none =>
    match alistFind "id" e.attrib with
    | some v => some v
    | none =>
      e.children.findSome? (fun c =>
        if strip_ns c.tag = "handle" ∨ strip_ns c.tag = "id" then pyStripNB c.text
        else none)

/-! ## Records -/

structure PName where
  formatted : Option String
  given : Option String
  surname : Option String
  pfx : Option String
  sfx : Option String
  raw : List (String × PyVal)

structure Person where
  handle : String
  raw : List (String × PyVal)
  names : List PName
  event_refs : List String
  attributes : List (List (String × PyVal))
  parents : List String
  children : List String
  families_as_parent : List String
  families_as_child : Option String

structure Family where
  handle : String
  raw : List (String × PyVal)
  father : Option String
  mother : Option String
  children : List String

structure GenericRecord where
  handle : String
  raw : List (String × PyVal)

/-- Error-propagating map over a list of elements. -/
def exMap (f : XmlElem → Except String β) : List XmlElem → Except String (List β)
  | [] => .ok []
  | x :: xs =>
    match f x with
    | .error e => .error e
    | .ok y =>
      match exMap f xs with
      | .error e => .error e
      | .ok ys => .ok (y :: ys)

/-! ## Person parsing -/

def nameTags : List String := ["name", "names", "display_name", "personal_name"]
def eventRefTags : List String := ["event_ref", "eventref", "event"]
def attrTags : List String := ["attribute", "attributes", "custom"]

structure NameAcc where
  formatted : Option String
  given : Option String
  surname : Option String
  pfx : Option String
  sfx : Option String

/-- One step of the per-name-element child scan; each matching tag
overwrites the corresponding component (last match wins). -/
def nameStep (acc : NameAcc) (c : XmlElem) : NameAcc :=
  let t := strip_ns c.tag
  if t = "formatted" ∨ t = "full" ∨ t = "display" then
    { acc with formatted := pyTextStrip c.text }
  else if t = "given" ∨ t = "first" ∨ t = "first_name" ∨ t = "forename" then
    { acc with given := some (pyStrip (pyOrOS c.text "")) }
  else if t = "surname" ∨ t = "last" ∨ t = "last_name" ∨ t = "family" then
    { acc with surname := some (pyStrip (pyOrOS c.text "")) }
  else if t = "prefix" ∨ t = "title" then
    { acc with pfx := some (pyStrip (pyOrOS c.text "")) }
  else if t = "suffix" then
    { acc with sfx := some (pyStrip (pyOrOS c.text "")) }
  else acc

def parseNameEl (n : XmlElem) : Except String PName :=
  let acc := n.children.foldl nameStep ⟨none, none, none, none, none⟩
  match elem_to_dict n with
  | .error e => .error e
  | .ok nraw => .ok ⟨acc.formatted, acc.given, acc.surname, acc.pfx, acc.sfx, nraw⟩

/-- Fallback display text scan when no name elements exist: the last direct
child tagged display_name or display sets the value (possibly back to None). -/
def fallbackName (p : XmlElem) : Option String :=
  p.children.foldl
    (fun acc c =>
      if strip_ns c.tag = "display_name" ∨ strip_ns c.tag = "display" then pyTextStrip c.text
      else acc)
    none

/-- Keep an optional string only when Python finds it truthy. -/
def truthyFilter : Option String → Option String
  | none => none
  | some s => if s = "" then none else some s

/-- Event reference resolution: ref attribute, else handle attribute, else
stripped text, kept only when truthy. -/
def evRef (c : XmlElem) : Option String :=
  truthyFilter
    (pyOrOO (alistFind "ref" c.attrib)
      (pyOrOO (alistFind "handle" c.attrib) (pyTextStrip c.text)))

def buildPerson (h : String) (p : XmlElem) : Except String Person :=
  match elem_to_dict p with
  | .error e => .error e
  | .ok raw =>
    match exMap parseNameEl (p.children.filter (fun c => nameTags.contains (strip_ns c.tag))) with
    | .error e => .error e
    | .ok names0 =>
      let names :=
        if names0.isEmpty then [⟨fallbackName p, none, none, none, none, raw⟩] else names0
      let event_refs :=
        (p.children.filter (fun c => eventRefTags.contains (strip_ns c.tag))).filterMap evRef
      match exMap elem_to_dict (p.children.filter (fun c => attrTags.contains (strip_ns c.tag))) with
      | .error e => .error e
      | .ok attrs =>
        .ok ⟨h, raw, names, event_refs, attrs, [], [], [], none⟩

/-! ## Family parsing -/

def fatherTags : List String := ["father", "husband", "father_ref", "father_handle", "parent"]
def motherTags : List String := ["mother", "wife", "mother_ref", "mother_handle"]
def famChildTags : List String := ["child", "child_ref", "children"]
def handleRefTags : List String := ["handle", "ref"]

/-- Father/mother reference: the ref attribute, else the stripped text. -/
def parentRef (c : XmlElem) : Option String :=
  pyOrOO (alistFind "ref" c.attrib) (pyTextStrip c.text)

/-- Child reference resolution inside a family element: a ref attribute if
present (its value taken verbatim); otherwise the first element of c.iter()
whose stripped tag is handle or ref and whose text is non-blank, taking the
trimmed text; otherwise the non-blank trimmed text of the element itself. -/
def resolveChildRef (c : XmlElem) : Option String :=
  if (alistFind "ref" c.attrib).isSome then alistFind "ref" c.attrib
  else
    match (iterSelf c).findSome? (fun d =>
        if handleRefTags.contains (strip_ns d.tag) then pyStripNB d.text else none) with
    | some t => some t
    | none => pyStripNB c.text

structure FamAcc where
  father : Option String
  mother : Option String
  children : List String

/-- One step of the scan over a family element's direct children. -/
def famStep (acc : FamAcc) (c : XmlElem) : FamAcc :=
  let tag := strip_ns c.tag
  if fatherTags.contains tag then
    match truthyFilter (parentRef c) with
    | some r => { acc with father := some r }
    | none => acc
  else if motherTags.contains tag then
    match truthyFilter (parentRef c) with
    | some r => { acc with mother := some r }
    | none => acc
  else if famChildTags.contains tag then
    match resolveChildRef c with
    | some r => { acc with children := acc.children ++ [r] }
    | none => acc
  else acc

def famScan (f : XmlElem) : FamAcc :=
  f.children.foldl famStep ⟨none, none, []⟩

def buildFamily (h : String) (f : XmlElem) : Except String Family :=
  match elem_to_dict f with
  | .error e => .error e
  | .ok raw =>
    let acc := famScan f
    .ok ⟨h, raw, acc.father, acc.mother, acc.children⟩

def buildGeneric (h : String) (el : XmlElem) : Except String GenericRecord :=
  match elem_to_dict el with
  | .error e => .error e
  | .ok raw => .ok ⟨h, raw⟩

/-! ## The shared parser loop

Each category parser iterates its elements, computes the handle (an explicit
identity, else `<prefix><n>` where n is the current mapping size plus one)
and stores the built record under that handle.
-/

def parseWith (pfx : String) (build : String → XmlElem → Except String α) :
    List (String × α) → List XmlElem → Except String (List (String × α))
  | out, [] => .ok out
  | out, e :: rest =>
    let h := pyOrOS (extract_handle e) (pfx ++ natStr (out.length + 1))
    match build h e with
    | .error msg => .error msg
    | .ok v => parseWith pfx build (dictInsert out h v) rest

def parse_people (elems : List XmlElem) : Except String (List (String × Person)) :=
  parseWith "person_" buildPerson [] elems

def parse_families (elems : List XmlElem) : Except String (List (String × Family)) :=
  parseWith "family_" buildFamily [] elems

def parse_generic (elems : List XmlElem) : Except String (List (String × GenericRecord)) :=
  parseWith "obj_" buildGeneric [] elems

/-! ## Cross-linking families and people

The linking loop in convert iterates all family records and mutates person
records only.  The state carries both mappings to make the frame of the loop
explicit; the loop body writes only the people component.
-/

abbrev PeopleMap := List (String × Person)
abbrev FamilyMap := List (String × Family)

/-- The truthiness filter of `[x for x in (father, mother) if x]`. -/
def optToL : Option String → List String
  | none => []
  | some s => if s = "" then [] else [s]

/-- Effect of one family on the people mapping: every child handle that is a
known person gets families_as_child set to this family and the truthy
father/mother appended to its parents; then each truthy father/mother that is
a known person gets this family appended to families_as_parent. -/
def linkFamily (st : PeopleMap × FamilyMap) (fh : String) (fam : Family) :
    PeopleMap × FamilyMap :=
  let p1 := fam.children.foldl
    (fun ppl ch =>
      if alistContains ch ppl then
        alistUpdate ch
          (fun p =>
            { p with
              families_as_child := some fh
              parents := p.parents ++ (optToL fam.father ++ optToL fam.mother) })
          ppl
      else ppl)
    st.1
  let p2 := (optToL fam.father ++ optToL fam.mother).foldl
    (fun ppl parent =>
      if alistContains parent ppl then
        alistUpdate parent
          (fun p => { p with families_as_parent := p.families_as_parent ++ [fh] })
          ppl
      else ppl)
    p1
  (p2, st.2)

def crossLink (people : PeopleMap) (families : FamilyMap) : PeopleMap × FamilyMap :=
  families.foldl (fun st kv => linkFamily st kv.1 kv.2) (people, families)

/-! ## Tree synthesis (build_treant_tree)

The Python builder caches node dicts by person handle; a cached node is
returned by reference, so the final structure is an arena of nodes indexed by
handle.  NodeRef.leaf is the minimal dict built for an unknown handle (it
carries only the display text and has no children key); NodeRef.ref points
into the arena.  The recursion is embedded with a fuel parameter; the proofs
below show that fuel equal to the number of person records plus one always
suffices, which is the cache-based termination argument of the source.
-/

inductive NodeRef where
  | leaf : String → NodeRef
  | ref : String → NodeRef
deriving DecidableEq

structure NodeData where
  name : String
  title : String
  children : List NodeRef
deriving DecidableEq

abbrev Cache := List (String × NodeData)

/-- The display-text part of display_info: the first name entry whose
formatted value is truthy wins; otherwise the first name entry (when any
exists) contributes formatted-or-joined-given-surname; otherwise the handle. -/
def displayName (p : Person) : String :=
  let primary0 : Option PName := p.names.find? (fun nm => pyTruthyO nm.formatted)
  let primary : Option PName :=
    match primary0 with
    | some nm => some nm
    | none => p.names.head?
  match primary with
  | some nm =>
    pyOrS (pyOrOS nm.formatted "")
      (pyStrip (pyOrOS nm.given "" ++ " " ++ pyOrOS nm.surname ""))
  | none => p.handle

/-- Handles gathered from the families in which the person is a parent:
for each family handle, the truthy child handles of that family in order. -/
def gatherChildren (families : FamilyMap) (p : Person) : List String :=
  (p.families_as_parent.map (fun famh =>
    match alistFind famh families with
    | none => []
    | some fam => fam.children.filter (fun ch => ch ≠ ""))).flatten

/-- The seen-set filter of the child loop: drop falsy handles and every
repeated handle, first occurrence winning. -/
def dedupSeen (seen : List String) : List String → List String
  | [] => []
  | ch :: rest =>
    if ch = "" ∨ seen.contains ch then dedupSeen seen rest
    else ch :: dedupSeen (ch :: seen) rest

/-- Replace the children of the first cache entry stored under a handle. -/
def setChildren (h : String) (ns : List NodeRef) : Cache → Cache
  | [] => []
  | (k, nd) :: rest =>
    if k = h then (k, { nd with children := ns }) :: rest
    else (k, nd) :: setChildren h ns rest

/-- Build a list of nodes left to right, threading the cache. -/
def buildList (recur : String → Cache → Option (NodeRef × Cache)) :
    List String → Cache → Option (List NodeRef × Cache)
  | [], cache => some ([], cache)
  | ch :: rest, cache =>
    match recur ch cache with
    | none => none
    | some (n, c2) =>
      match buildList recur rest c2 with
      | none => none
      | some (ns, c3) => some (n :: ns, c3)

/-- The body of build_person_node: unknown handles give a minimal leaf,
cached handles return the cached node, otherwise the node is placed in the
cache before the recursion into its (deduplicated) gathered children, whose
results then become its children. -/
def buildStep (people : PeopleMap) (families : FamilyMap)
    (recur : String → Cache → Option (NodeRef × Cache))
    (handle : String) (cache : Cache) : Option (NodeRef × Cache) :=
  match alistFind handle people with
  | none => some (.leaf (pyOrS handle "<Unknown>"), cache)
  | some p =>
    if alistContains handle cache then some (.ref handle, cache)
    else
      let cache1 := (handle, ⟨displayName p, "", []⟩) :: cache
      match buildList recur (dedupSeen [] (gatherChildren families p)) cache1 with
      | none => none
      | some (ns, c2) => some (.ref handle, setChildren handle ns c2)

def buildFuel (people : PeopleMap) (families : FamilyMap) :
    Nat → String → Cache → Option (NodeRef × Cache)
  | 0 => fun _ _ => none
  | fuel + 1 => buildStep people families (buildFuel people families fuel)

/-- The value returned by build_treant_tree: a person node, or the synthetic
"Roots" container holding one subtree per root candidate. -/
inductive TreeRoot where
  | node : NodeRef → TreeRoot
  | pseudoRoot : List NodeRef → TreeRoot
deriving DecidableEq

def treeFuel (people : PeopleMap) : Nat := people.length + 1

/-- Auto-detected root candidates: every person whose families_as_child is
falsy, falling back to the first person when there are none. -/
def rootCandidates (people : PeopleMap) : List String :=
  let roots0 := (people.filter (fun kv => !pyTruthyO kv.2.families_as_child)).map Prod.fst
  if roots0.isEmpty then (people.map Prod.fst).take 1 else roots0

def build_treant_tree (people : PeopleMap) (families : FamilyMap)
    (root_handle : Option String) : Option (TreeRoot × Cache) :=
  if pyTruthyO root_handle then
    (buildFuel people families (treeFuel people) (root_handle.getD "") []).map
      (fun rc => (.node rc.1, rc.2))
  else
    match rootCandidates people with
    | [r] =>
      (buildFuel people families (treeFuel people) r []).map (fun rc => (.node rc.1, rc.2))
    | rs =>
      (buildList (buildFuel people families (treeFuel people)) rs []).map
        (fun rc => (.pseudoRoot rc.1, rc.2))

/-! ## Tag classification and the full conversion -/

def personTags : List String := ["person", "person_obj", "individual"]
def familyTags : List String := ["family", "family_obj"]
def eventTags : List String := ["event"]
def placeTags : List String := ["place", "Place", "PLACE"]
def mediaTags : List String := ["media", "media_list", "images"]
def sourcesTags : List String := ["sources", "source_list"]
def citationsTags : List String := ["citations", "citation_list"]
def repositoriesTags : List String := ["repositories", "repository_list"]
def notesTags : List String := ["notes", "note_list"]
def tagsTags : List String := ["tags", "tag_list"]

structure Buckets where
  people : List XmlElem
  families : List XmlElem
  events : List XmlElem
  places : List XmlElem
  media : List XmlElem
  sources : List XmlElem
  citations : List XmlElem
  repositories : List XmlElem
  notes : List XmlElem
  tags : List XmlElem

def emptyBuckets : Buckets := ⟨[], [], [], [], [], [], [], [], [], []⟩

/-- One classification step of collect_objects, in the fixed category-check
order of the source; unmatched elements are left out of every bucket. -/
def classifyStep (b : Buckets) (el : XmlElem) : Buckets :=
  let st := strip_ns el.tag
  if personTags.contains st then { b with people := b.people ++ [el] }
  else if familyTags.contains st then { b with families := b.families ++ [el] }
  else if eventTags.contains st then { b with events := b.events ++ [el] }
  else if placeTags.contains st then { b with places := b.places ++ [el] }
  else if mediaTags.contains st then { b with media := b.media ++ [el] }
  else if sourcesTags.contains st then { b with sources := b.sources ++ [el] }
  else if citationsTags.contains st then { b with citations := b.citations ++ [el] }
  else if repositoriesTags.contains st then { b with repositories := b.repositories ++ [el] }
  else if notesTags.contains st then { b with notes := b.notes ++ [el] }
  else if tagsTags.contains st then { b with tags := b.tags ++ [el] }
  else b

/-- collect_objects: allocate every element of root.iter() to at most one
category bucket. -/
def collect_objects (root : XmlElem) : Buckets :=
  (iterSelf root).foldl classifyStep emptyBuckets

structure Parsed where
  people : PeopleMap
  families : FamilyMap
  events : List (String × GenericRecord)
  places : List (String × GenericRecord)
  media : List (String × GenericRecord)
  sources : List (String × GenericRecord)
  citations : List (String × GenericRecord)
  repositories : List (String × GenericRecord)
  notes : List (String × GenericRecord)
  tags : List (String × GenericRecord)

/-- The parsing stage of convert, in source order. -/
def parseAll (root : XmlElem) : Except String Parsed :=
  let b := collect_objects root
  match parse_people b.people with
  | .error e => .error e
  | .ok people =>
    match parse_families b.families with
    | .error e => .error e
    | .ok families =>
      match parse_generic b.events with
      | .error e => .error e
      | .ok events =>
        match parse_generic b.places with
        | .error e => .error e
        | .ok places =>
          match parse_generic b.media with
          | .error e => .error e
          | .ok media =>
            match parse_generic b.sources with
            | .error e => .error e
            | .ok sources =>
              match parse_generic b.citations with
              | .error e => .error e
              | .ok citations =>
                match parse_generic b.repositories with
                | .error e => .error e
                | .ok repositories =>
                  match parse_generic b.notes with
                  | .error e => .error e
                  | .ok notes =>
                    match parse_generic b.tags with
                    | .error e => .error e
                    | .ok tags =>
                      .ok ⟨people, families, events, places, media, sources,
                        citations, repositories, notes, tags⟩

structure Output where
  people : PeopleMap
  families : FamilyMap
  events : List (String × GenericRecord)
  places : List (String × GenericRecord)
  media : List (String × GenericRecord)
  sources : List (String × GenericRecord)
  citations : List (String × GenericRecord)
  repositories : List (String × GenericRecord)
  notes : List (String × GenericRecord)
  tags : List (String × GenericRecord)
  tree : Option (TreeRoot × Cache)

/-- The pure tail of convert: cross-link, build the tree, assemble the
composite object.  The media-extraction branch is the excluded I/O layer; the
embedded path is the pass-through one (no extraction directory). -/
def assemble (root_person : Option String) (pr : Parsed) : Output :=
  let linked := crossLink pr.people pr.families
  let tree_root := build_treant_tree linked.1 linked.2 root_person
  ⟨linked.1, linked.2, pr.events, pr.places, pr.media, pr.sources,
    pr.citations, pr.repositories, pr.notes, pr.tags, tree_root⟩

/-- convert, from the parsed XML root element (the byte-level XML parse and
file handling are the excluded I/O boundary). -/
def convertModel (root : XmlElem) (root_person : Option String) : Except String Output :=
  match parseAll root with
  | .error e => .error e
  | .ok pr => .ok (assemble root_person pr)

/-! ## Further definitions used by the verification -/

/-- The handle or display text carried by a node reference. -/
def refName : NodeRef → String
  | .leaf s => s
  | .ref s => s

/-- Number of person entries whose key is not yet cached; the decreasing
measure of the tree recursion. -/
def missingCount (people : PeopleMap) (cache : Cache) : Nat :=
  people.countP (fun kv => !alistContains kv.1 cache)

/-- Spec-side child reference resolution, following the wording of the spec:
first a ref attribute on the element itself; otherwise the trimmed text of
the first descendant element in document order whose stripped tag is handle
or ref and whose text is non-blank; otherwise the element's own trimmed
non-blank text. -/
def resolveChildSpec (c : XmlElem) : Option String :=
  match alistFind "ref" c.attrib with
  | some v => some v
  | none =>
    match (iterList c.children).findSome? (fun d =>
        if handleRefTags.contains (strip_ns d.tag) then pyStripNB d.text else none) with
    | some t => some t
    | none => pyStripNB c.text

/-- Spec-side display rule (the amended form of claim C5): the formatted
value of the first name entry whose formatted value is non-empty; otherwise,
when at least one name entry exists, the first entry's given and surname
joined with a space and trimmed (used even when empty); otherwise the handle
string. -/
def displaySpec (p : Person) : String :=
  match p.names.findSome? (fun nm =>
      match nm.formatted with
      | some s => if s = "" then none else some s
      | none => none) with
  | some s => s
  | none =>
    match p.names with
    | [] => p.handle
    | nm :: _ => pyStrip (pyOrOS nm.given "" ++ " " ++ pyOrOS nm.surname "")

/-! The collision-freedom predicate for elem_to_dict (the amended form of
claim C3): no element may combine attributes with a child whose dict key is
"_attrs", nor non-blank text with a child whose dict key is "_text". -/
mutual
def noCollideB : XmlElem → Bool
  | .mk _ a tx cs =>
    (a.isEmpty || cs.all (fun c => childKey c ≠ "_attrs")) &&
    ((pyStripNB tx).isNone || cs.all (fun c => childKey c ≠ "_text")) &&
    noCollideL cs
termination_by structural e => e
def noCollideL : List XmlElem → Bool
  | [] => true
  | c :: cs => noCollideB c && noCollideL cs
termination_by structural cs => cs
end

/-- Father-then-mother handles of a family, each kept only when present
(the truthiness filter additionally drops an empty-string handle, which the
family parser never produces). -/
def famParentsPresent (fam : Family) : List String :=
  fam.father.toList ++ fam.mother.toList

/-- Parent handles appended by one family to the parents sequence of person
H: one copy of the present father/mother pair per occurrence of H in the
family's child sequence. -/
def parentsAdd (H : String) (fam : Family) : List String :=
  ((fam.children.filter (fun c => c == H)).map (fun _ => famParentsPresent fam)).flatten

/-- Family handles appended by one family to families_as_parent of person H:
one copy of the family handle per occurrence of H among the present
father/mother handles. -/
def fapAdd (H fh : String) (fam : Family) : List String :=
  ((famParentsPresent fam).filter (fun x => x == H)).map (fun _ => fh)

/-- The handle of the last family record, in processing order, whose child
sequence contains H. -/
def lastFamWithChild (H : String) (fams : FamilyMap) : Option String :=
  ((fams.filter (fun kv => kv.2.children.contains H)).map Prod.fst).getLast?

/-- The per-person effect of linking one family, used to state the
cross-linking characterization. -/
def famEffect (fh : String) (fam : Family) (H : String) (p : Person) : Person :=
  { p with
    parents := p.parents ++
      ((fam.children.filter (fun c => c == H)).map
        (fun _ => optToL fam.father ++ optToL fam.mother)).flatten
    families_as_parent := p.families_as_parent ++
      (((optToL fam.father ++ optToL fam.mother).filter (fun x => x == H)).map (fun _ => fh))
    families_as_child := if fam.children.contains H then some fh else p.families_as_child }

/-! ## Concrete data for witnesses and counterexamples -/

/-- An element whose attributes collide with a child tagged _attrs. -/
def collideElem : XmlElem := .mk "e" [("a", "1")] none [.mk "_attrs" [] none []]

/-- A benign element exercising attributes, text and repeated child tags. -/
def benignElem : XmlElem :=
  .mk "e" [("a", "1")] (some " t ") [.mk "x" [] none [], .mk "x" [] none []]

/-- An events-category element with no explicit identity. -/
def eventNoId : XmlElem := .mk "event" [] none []

/-- A person whose first name entry has formatted present-but-empty. -/
def c5person : Person :=
  ⟨"H", [], [⟨some "", some "John", none, none, none, []⟩], [], [], [], [], [], none⟩

def wPersonC : Person := ⟨"C", [], [], [], [], [], [], [], none⟩
def wPersonF : Person := ⟨"F", [], [], [], [], [], [], [], none⟩
def wFam1 : Family := ⟨"fam1", [], some "F", none, ["C"]⟩
def wPeople1 : PeopleMap := [("C", wPersonC), ("F", wPersonF)]
def wFams1 : FamilyMap := [("fam1", wFam1)]
def wPersonC1 : Person := ⟨"C", [], [], [], [], ["F"], [], [], some "fam1"⟩

/-- Cyclic graph: A is a parent of B through F1 and B a parent of A through
F2; F1 additionally repeats child B and references the unknown handle C. -/
def cycPerA : Person :=
  ⟨"A", [], [⟨some "Ann", none, none, none, none, []⟩], [], [], [], [], ["F1"], none⟩
def cycPerB : Person :=
  ⟨"B", [], [⟨some "Bob", none, none, none, none, []⟩], [], [], [], [], ["F2"], some "F1"⟩
def cycF1 : Family := ⟨"F1", [], some "A", none, ["B", "B", "C"]⟩
def cycF2 : Family := ⟨"F2", [], some "B", none, ["A"]⟩
def cycPeople : PeopleMap := [("A", cycPerA), ("B", cycPerB)]
def cycFams : FamilyMap := [("F1", cycF1), ("F2", cycF2)]

/-- The root element used by the convert-level witnesses: a bare person. -/
def wRootPerson : XmlElem := .mk "person" [("handle", "I1")] none []

def wRootEmpty : XmlElem := .mk "db" [] none []


/-- The raw dict of wRootPerson. -/
def w10raw : List (String × PyVal) := [("_attrs", .pdict [("handle", .pstr "I1")])]

/-- The person record that convert produces for wRootPerson. -/
def w10person : Person :=
  ⟨"I1", w10raw, [⟨none, none, none, none, none, w10raw⟩], [], [], [], [], [], none⟩

/-- The composite object convert produces for wRootPerson with no root. -/
def w10out : Output :=
  ⟨[("I1", w10person)], [], [], [], [], [], [], [], [], [],
    some (.node (.ref "I1"), [("I1", ⟨"", "", []⟩)])⟩

/-- The composite object convert produces for the childless element wRootEmpty. -/
def w9out : Output :=
  ⟨[], [], [], [], [], [], [], [], [], [], some (.pseudoRoot [], [])⟩

/-- The node cache produced when building the cyclic example from handle A. -/
def cycCache : Cache :=
  [("B", ⟨"Bob", "", [NodeRef.ref "A"]⟩),
   ("A", ⟨"Ann", "", [NodeRef.ref "B", NodeRef.leaf "C"]⟩)]

/-- A recursion step extends the cache only by entries whose keys were not
cached before, leaving existing entries in place as a suffix. -/
def CacheExt (f : String → Cache → Option (NodeRef × Cache)) : Prop :=
  ∀ h c r c2, f h c = some (r, c2) →
    ∃ pre, c2 = pre ++ c ∧ ∀ k ∈ pre.map Prod.fst, alistContains k c = false

/-! ## General lemmas about the dict and string helpers -/

theorem alistFind_update_self (h : String) (f : α → α) (m : List (String × α)) :
    alistFind h (alistUpdate h f m) = (alistFind h m).map f := by
  induction m with
  | nil => rfl
  | cons kv rest ih =>
    by_cases hk : kv.1 = h
    · simp [alistUpdate, alistFind, hk]
    · simp [alistUpdate, alistFind, hk, ih]

theorem alistFind_update_ne (h k : String) (hne : h ≠ k) (f : α → α)
    (m : List (String × α)) :
    alistFind h (alistUpdate k f m) = alistFind h m := by
  induction m with
  | nil => rfl
  | cons kv rest ih =>
    by_cases hk : kv.1 = k
    · simp [alistUpdate, alistFind, hk, Ne.symm hne]
    · simp [alistUpdate, alistFind, hk, ih]

theorem keys_alistUpdate (k : String) (f : α → α) (m : List (String × α)) :
    (alistUpdate k f m).map Prod.fst = m.map Prod.fst := by
  induction m with
  | nil => rfl
  | cons kv rest ih =>
    by_cases hk : kv.1 = k
    · simp [alistUpdate, hk]
    · simp [alistUpdate, hk, ih]

theorem alistFind_mem {h : String} {m : List (String × α)} {v : α}
    (hf : alistFind h m = some v) : (h, v) ∈ m := by
  induction m with
  | nil => simp [alistFind] at hf
  | cons kv rest ih =>
    obtain ⟨k1, v1⟩ := kv
    by_cases hk : k1 = h
    · simp only [alistFind, hk, if_pos] at hf
      injection hf with hv
      subst hk
      subst hv
      exact List.mem_cons_self _ _
    · simp only [alistFind, hk, if_neg, not_false_iff] at hf
      exact List.mem_cons_of_mem _ (ih hf)

theorem alistFind_isSome_iff_keys (h : String) (m : List (String × α)) :
    (alistFind h m).isSome = (m.map Prod.fst).contains h := by
  induction m with
  | nil => rfl
  | cons kv rest ih =>
    by_cases hk : kv.1 = h
    · simp [alistFind, hk]
    · simp [alistFind, hk, ih, List.contains_cons, Ne.symm hk]

theorem toDecCore_fuel_irrel :
    ∀ f1 f2 n : Nat, n < f1 → n < f2 → toDecCore f1 n = toDecCore f2 n := by
  intro f1
  induction f1 with
  | zero => intro f2 n h1; omega
  | succ f ih =>
    intro f2 n h1 h2
    match f2, h2 with
    | f2 + 1, h2 =>
      by_cases hn : n < 10
      · simp [toDecCore, hn]
      · have hd : n / 10 < n := Nat.div_lt_self (by omega) (by omega)
        simp only [toDecCore, hn, if_neg, not_false_iff]
        rw [ih f2 (n / 10) (by omega) (by omega)]

theorem toDecCore_ne_nil : ∀ f n : Nat, n < f → toDecCore f n ≠ [] := by
  intro f n hn
  cases f with
  | zero => omega
  | succ f =>
    by_cases h10 : n < 10
    · simp [toDecCore, h10]
    · simp [toDecCore, h10]

theorem natStr_small {n : Nat} (h : n < 10) :
    (natStr n).data = [Nat.digitChar n] := by
  simp [natStr, toDecCore, h]

theorem natStr_large {n : Nat} (h : 10 ≤ n) :
    (natStr n).data = (natStr (n / 10)).data ++ [Nat.digitChar (n % 10)] := by
  have hd : n / 10 < n := Nat.div_lt_self (by omega) (by omega)
  simp only [natStr]
  show toDecCore (n + 1) n = toDecCore (n / 10 + 1) (n / 10) ++ [Nat.digitChar (n % 10)]
  have : toDecCore (n + 1) n = toDecCore n (n / 10) ++ [Nat.digitChar (n % 10)] := by
    simp [toDecCore, Nat.not_lt.mpr h]
  rw [this, toDecCore_fuel_irrel n (n / 10 + 1) (n / 10) (by omega) (by omega)]

theorem digitChar_inj {a b : Nat} (ha : a < 10) (hb : b < 10)
    (h : Nat.digitChar a = Nat.digitChar b) : a = b := by
  interval_cases a <;> interval_cases b <;> first | rfl | (exfalso; revert h; decide)

theorem natStr_data_inj : ∀ a b : Nat, (natStr a).data = (natStr b).data → a = b := by
  intro a
  induction a using Nat.strong_induction_on with
  | _ a ih =>
    intro b h
    by_cases ha : a < 10
    · by_cases hb : b < 10
      · rw [natStr_small ha, natStr_small hb] at h
        exact digitChar_inj ha hb (List.singleton_injective h)
      · rw [natStr_small ha, @natStr_large b (by omega)] at h
        have hne := toDecCore_ne_nil (b / 10 + 1) (b / 10) (by omega)
        have hlen := congrArg List.length h
        simp only [List.length_singleton, List.length_append] at hlen
        have hnil : (natStr (b / 10)).data ≠ [] := by simpa [natStr] using hne
        have : 1 ≤ (natStr (b / 10)).data.length := List.length_pos.mpr hnil
        omega
    · by_cases hb : b < 10
      · rw [@natStr_large a (by omega), natStr_small hb] at h
        have hne := toDecCore_ne_nil (a / 10 + 1) (a / 10) (by omega)
        have hlen := congrArg List.length h
        simp only [List.length_singleton, List.length_append] at hlen
        have hnil : (natStr (a / 10)).data ≠ [] := by simpa [natStr] using hne
        have : 1 ≤ (natStr (a / 10)).data.length := List.length_pos.mpr hnil
        omega
      · rw [@natStr_large a (by omega), @natStr_large b (by omega)] at h
        have hrev := congrArg List.reverse h
        simp only [List.reverse_append, List.reverse_singleton, List.singleton_append] at hrev
        injection hrev with hdig htail
        have hq : a / 10 = b / 10 := by
          have hda : a / 10 < a := Nat.div_lt_self (by omega) (by omega)
          exact ih (a / 10) hda (b / 10) (List.reverse_injective htail)
        have hr : a % 10 = b % 10 :=
          digitChar_inj (Nat.mod_lt _ (by omega)) (Nat.mod_lt _ (by omega)) hdig
        omega

theorem natStr_inj {a b : Nat} (h : natStr a = natStr b) : a = b :=
  natStr_data_inj a b (congrArg String.data h)

theorem string_append_data (a b : String) : (a ++ b).data = a.data ++ b.data := rfl

theorem string_append_left_cancel {a b c : String} (h : a ++ b = a ++ c) : b = c := by
  have hd := congrArg String.data h
  rw [string_append_data, string_append_data] at hd
  cases b
  cases c
  exact congrArg String.mk (List.append_cancel_left hd)

theorem natStr_inj2 {a b : Nat} (h : natStr a = natStr b) : a = b :=
  natStr_data_inj a b (congrArg String.data h)

/-- A freshly synthesized handle never collides with the previously
synthesized ones. -/
theorem synthKey_not_mem (pfx : String) (n : Nat) :
    pfx ++ natStr (n + 1) ∉ (List.range n).map (fun i => pfx ++ natStr (i + 1)) := by
  intro hmem
  obtain ⟨i, hi, heq⟩ := List.mem_map.mp hmem
  have h1 := natStr_inj (string_append_left_cancel heq.symm)
  have h2 := List.mem_range.mp hi
  omega

theorem parseWith_keys {α : Type} (pfx : String) (build : String → XmlElem → Except String α) :
    ∀ (elems : List XmlElem) (out0 res : List (String × α)),
      (∀ e ∈ elems, extract_handle e = none) →
      out0.map Prod.fst = (List.range out0.length).map (fun i => pfx ++ natStr (i + 1)) →
      parseWith pfx build out0 elems = .ok res →
      res.map Prod.fst =
        (List.range (out0.length + elems.length)).map (fun i => pfx ++ natStr (i + 1)) := by
  intro elems
  induction elems with
  | nil =>
    intro out0 res _ hkeys hp
    simp only [parseWith] at hp
    injection hp with hp
    subst hp
    simpa using hkeys
  | cons e rest ih =>
    intro out0 res hall hkeys hp
    have he : extract_handle e = none := hall e (List.mem_cons_self _ _)
    simp only [parseWith, he, pyOrOS] at hp
    cases hb : build (pfx ++ natStr (out0.length + 1)) e with
    | error msg => rw [hb] at hp; cases hp
    | ok v =>
      rw [hb] at hp
      have hfresh : alistContains (pfx ++ natStr (out0.length + 1)) out0 = false := by
        have : (alistFind (pfx ++ natStr (out0.length + 1)) out0).isSome = false := by
          rw [alistFind_isSome_iff_keys, hkeys]
          by_contra hc
          rw [Bool.not_eq_false] at hc
          exact synthKey_not_mem pfx out0.length (List.elem_iff.mp hc)
        simpa [alistContains] using this
      simp only [dictInsert, hfresh, Bool.false_eq_true, if_false] at hp
      have hkeys2 :
          (out0 ++ [(pfx ++ natStr (out0.length + 1), v)]).map Prod.fst =
            (List.range (out0 ++ [(pfx ++ natStr (out0.length + 1), v)]).length).map
              (fun i => pfx ++ natStr (i + 1)) := by
        simp only [List.map_append, List.length_append, List.length_singleton]
        rw [hkeys, List.range_succ]
        simp
      have hres := ih (out0 ++ [(pfx ++ natStr (out0.length + 1), v)]) res
        (fun e2 h2 => hall e2 (List.mem_cons_of_mem _ h2)) hkeys2 hp
      simp only [List.length_append, List.length_singleton] at hres
      have hlen : out0.length + (e :: rest).length = out0.length + 1 + rest.length := by
        simp only [List.length_cons]
        omega
      rw [hlen]
      exact hres

/-- Claim C6 counterexample: an events-category element with no explicit
identity receives the synthesized handle obj_1, which matches neither the
category-named events_1 nor the singular event_1 scheme stated by the claim. -/
theorem C6_counterexample :
    (parse_generic [eventNoId]).map (fun l => l.map Prod.fst) = .ok ["obj_1"] ∧
    ("obj_1" : String) ≠ "events_1" ∧ ("obj_1" : String) ≠ "event_1" :=
  ⟨rfl, by decide, by decide⟩

/-- Claim C6 (amended): records lacking an explicit identity receive, in
encounter order, the synthesized handles person_1, person_2, ... in the
people category, family_1, ... in the families category, and obj_1, obj_2,
... in every generic category (events included), the ordinal being the
current size of the category mapping plus one. -/
theorem C6_synthesized_handles :
    (∀ elems out, (∀ e ∈ elems, extract_handle e = none) → parse_people elems = .ok out →
      out.map Prod.fst = (List.range elems.length).map (fun i => "person_" ++ natStr (i + 1))) ∧
    (∀ elems out, (∀ e ∈ elems, extract_handle e = none) → parse_families elems = .ok out →
      out.map Prod.fst = (List.range elems.length).map (fun i => "family_" ++ natStr (i + 1))) ∧
    (∀ elems out, (∀ e ∈ elems, extract_handle e = none) → parse_generic elems = .ok out →
      out.map Prod.fst = (List.range elems.length).map (fun i => "obj_" ++ natStr (i + 1))) := by
  refine ⟨?_, ?_, ?_⟩ <;> intro elems out hall hp <;>
    simpa using parseWith_keys _ _ elems [] out hall (by simp) hp

/-- Witness for the C6 theorem: two identity-free events elements receive
obj_1 and obj_2. -/
theorem C6_synthesized_handles_witness :
    [("obj_1", (⟨"obj_1", []⟩ : GenericRecord)), ("obj_2", ⟨"obj_2", []⟩)].map Prod.fst =
      (List.range 2).map (fun i => "obj_" ++ natStr (i + 1)) :=
  C6_synthesized_handles.2.2 [eventNoId, eventNoId] _ (by decide) rfl

/-- Claim C8: with an empty people mapping and no explicit root handle,
build_treant_tree returns exactly one node, the synthetic container, and it
has no child nodes. -/
theorem C8_empty_people (families : FamilyMap) :
    build_treant_tree [] families none = some (.pseudoRoot [], []) := rfl

/-- Claim C7 counterexample: the empty string is an explicit root handle
that is not a key of the (empty) people mapping, yet build_treant_tree takes
the auto-detect branch and returns the synthetic Roots container instead of
a leaf carrying the handle as display text. -/
theorem C7_counterexample :
    build_treant_tree [] [] (some "") = some (.pseudoRoot [], []) ∧
    (TreeRoot.pseudoRoot [] : TreeRoot) ≠ .node (.leaf "") :=
  ⟨rfl, by decide⟩

/-- Claim C7 (amended): for a non-empty explicit root handle that is not a
key of the people mapping, build_treant_tree returns a single leaf node whose
display text is the handle string and which has no child nodes. -/
theorem C7_unknown_root (people : PeopleMap) (families : FamilyMap) (h : String)
    (hne : h ≠ "") (hun : alistFind h people = none) :
    build_treant_tree people families (some h) = some (.node (.leaf h), []) := by
  simp [build_treant_tree, pyTruthyO, hne, treeFuel, buildFuel, buildStep, hun, pyOrS]

/-- Witness for the C7 theorem at the concrete handle X and empty mapping. -/
theorem C7_unknown_root_witness :
    ("X" : String) ≠ "" ∧ alistFind "X" ([] : PeopleMap) = none ∧
    build_treant_tree [] [] (some "X") = some (.node (.leaf "X"), []) :=
  ⟨by decide, rfl, C7_unknown_root [] [] "X" (by decide) rfl⟩

/-- The first-truthy-formatted scan agrees with extracting the first
non-empty formatted value. -/
theorem findTruthy_eq_findSome (l : List PName) :
    (match l.find? (fun nm => pyTruthyO nm.formatted) with
     | some nm => some (pyOrOS nm.formatted "")
     | none => none) =
    l.findSome? (fun nm =>
      match nm.formatted with
      | some s => if s = "" then none else some s
      | none => none) := by
  induction l with
  | nil => rfl
  | cons nm rest ih =>
    rw [List.findSome?_cons]
    cases hf : nm.formatted with
    | none =>
      rw [List.find?_cons_of_neg rest (by simp [pyTruthyO, hf])]
      simpa [hf] using ih
    | some s =>
      by_cases hs : s = ""
      · rw [List.find?_cons_of_neg rest (by simp [pyTruthyO, hf, hs])]
        simpa [hf, hs] using ih
      · rw [List.find?_cons_of_pos rest (by simp [pyTruthyO, hf, hs])]
        simp [hf, hs, pyOrOS, pyOrS]

/-- Claim C5 counterexample: the first (and only) name entry of c5person has
the non-absent formatted value "" and given name John; the claim as stated
selects the first non-absent formatted value, predicting display text "",
but the code treats the empty formatted value as absent and produces John. -/
theorem C5_counterexample : displayName c5person = "John" ∧ ("John" : String) ≠ "" :=
  ⟨rfl, by decide⟩

/-- Claim C5 (amended): the display text is the formatted value of the first
name entry whose formatted value is non-empty; if none exists and the name
sequence is non-empty, it is the first entry's given and surname joined with
a space and trimmed, used even when that result is empty (no further
fallback); only when the name sequence is empty is the handle string used. -/
theorem C5_display_rule (p : Person) : displayName p = displaySpec p := by
  unfold displayName displaySpec
  rw [← findTruthy_eq_findSome]
  cases hf : p.names.find? (fun nm => pyTruthyO nm.formatted) with
  | some nm =>
    have ht : pyTruthyO nm.formatted = true := by
      have := List.find?_some hf
      simpa using this
    cases hfo : nm.formatted with
    | none => rw [hfo] at ht; cases ht
    | some s =>
      have hs : s ≠ "" := by
        rw [hfo] at ht
        simpa [pyTruthyO] using ht
      simp [pyOrOS, pyOrS, hfo, hs]
  | none =>
    cases hn : p.names with
    | nil => simp
    | cons nm rest =>
      have hmem : nm ∈ p.names := by rw [hn]; exact List.mem_cons_self _ _
      have hnt : ¬ pyTruthyO nm.formatted = true := by
        intro hcon
        have := List.find?_eq_none.mp hf nm hmem
        exact this hcon
      have hempty : pyOrOS nm.formatted "" = "" := by
        cases hfo : nm.formatted with
        | none => rfl
        | some s =>
          rw [hfo] at hnt
          have : s = "" := by simpa [pyTruthyO] using hnt
          simp [pyOrOS, pyOrS, this]
      simp [hn, hempty, pyOrS]

/-- Keys of the pre-children dict: only the reserved keys can be present,
and only under the corresponding source condition. -/
theorem alistFind_elemBase (a : List (String × String)) (tx : Option String)
    (k : String) (v : PyVal) (hf : alistFind k (elemBase a tx) = some v) :
    (k = "_attrs" ∧ a.isEmpty = false) ∨ (k = "_text" ∧ (pyStripNB tx).isSome = true) := by
  by_cases h1 : k = "_attrs"
  · cases hae : a.isEmpty
    · exact Or.inl ⟨h1, rfl⟩
    · exfalso
      subst h1
      unfold elemBase at hf
      rw [hae] at hf
      cases hts : pyStripNB tx <;> rw [hts] at hf <;> simp [alistFind] at hf
  · by_cases h2 : k = "_text"
    · cases hts : pyStripNB tx
      · exfalso
        subst h2
        unfold elemBase at hf
        rw [hts] at hf
        cases hae : a.isEmpty <;> rw [hae] at hf <;> simp [alistFind, Ne.symm h1] at hf
      · exact Or.inr ⟨h2, by simp [hts]⟩
    · exfalso
      unfold elemBase at hf
      cases hae : a.isEmpty <;> rw [hae] at hf <;>
        cases hts : pyStripNB tx <;> rw [hts] at hf <;>
        simp [alistFind, Ne.symm h1, Ne.symm h2] at hf

/-- setdefault-append succeeds whenever the target key holds a list or is
absent, and it preserves that discipline for the other keys. -/
theorem setdefaultAppend_ok (k : String) (v0 : PyVal) :
    ∀ d : List (String × PyVal),
      (∀ v, alistFind k d = some v → ∃ l, v = PyVal.plist l) →
      ∃ d2, setdefaultAppend d k v0 = .ok d2 ∧
        (∀ k2 v2, alistFind k2 d2 = some v2 →
          (∃ l, v2 = PyVal.plist l) ∨ (k2 ≠ k ∧ alistFind k2 d = some v2)) := by
  intro d
  induction d with
  | nil =>
    intro _
    refine ⟨[(k, .plist [v0])], rfl, ?_⟩
    intro k2 v2 hf
    by_cases hk : k = k2
    · subst hk
      have hcomp : alistFind k [(k, PyVal.plist [v0])] = some (PyVal.plist [v0]) := by
        simp [alistFind]
      rw [hcomp] at hf
      injection hf with hv
      exact Or.inl ⟨[v0], hv.symm⟩
    · simp only [alistFind] at hf
      rw [if_neg hk] at hf
      cases hf
  | cons kv rest ih =>
    obtain ⟨k1, v1⟩ := kv
    intro hinv
    by_cases hk1 : k1 = k
    · have hfind1 : alistFind k ((k1, v1) :: rest) = some v1 := by
        simp only [alistFind]
        rw [if_pos hk1]
      obtain ⟨l, hl⟩ := hinv v1 hfind1
      subst hl
      refine ⟨(k1, .plist (l ++ [v0])) :: rest, ?_, ?_⟩
      · unfold setdefaultAppend
        rw [if_pos hk1]
      · intro k2 v2 hf
        by_cases hk2 : k1 = k2
        · subst hk2
          have hcomp : alistFind k1 ((k1, PyVal.plist (l ++ [v0])) :: rest) =
              some (PyVal.plist (l ++ [v0])) := by
            simp [alistFind]
          rw [hcomp] at hf
          injection hf with hv
          exact Or.inl ⟨l ++ [v0], hv.symm⟩
        · simp only [alistFind] at hf
          rw [if_neg hk2] at hf
          refine Or.inr ⟨fun hc => hk2 (hk1.trans hc.symm), ?_⟩
          simp only [alistFind]
          rw [if_neg hk2]
          exact hf
    · have hrest : ∀ v, alistFind k rest = some v → ∃ l, v = PyVal.plist l := by
        intro v hv
        apply hinv v
        simp only [alistFind]
        rw [if_neg hk1]
        exact hv
      obtain ⟨d2, hd2, hprop⟩ := ih hrest
      refine ⟨(k1, v1) :: d2, ?_, ?_⟩
      · unfold setdefaultAppend
        rw [if_neg hk1, hd2]
        rfl
      · intro k2 v2 hf
        by_cases hk2 : k1 = k2
        · subst hk2
          have hcomp : alistFind k1 ((k1, v1) :: d2) = some v1 := by
            simp [alistFind]
          rw [hcomp] at hf
          injection hf with hv
          refine Or.inr ⟨fun hc => hk1 hc, ?_⟩
          have hcomp2 : alistFind k1 ((k1, v1) :: rest) = some v1 := by
            simp [alistFind]
          rw [hcomp2, hv]
        · simp only [alistFind] at hf
          rw [if_neg hk2] at hf
          rcases hprop k2 v2 hf with h | ⟨hne, hold⟩
          · exact Or.inl h
          · refine Or.inr ⟨hne, ?_⟩
            simp only [alistFind]
            rw [if_neg hk2]
            exact hold

theorem noCollideL_mem :
    ∀ cs : List XmlElem, noCollideL cs = true → ∀ c ∈ cs, noCollideB c = true := by
  intro cs
  induction cs with
  | nil => intro _ c hc; cases hc
  | cons c rest ih =>
    intro h c2 hc2
    have h2 : noCollideB c = true ∧ noCollideL rest = true := by
      simpa [noCollideL, Bool.and_eq_true] using h
    cases hc2 with
    | head => exact h2.1
    | tail b hmem => exact ih h2.2 c2 hmem

theorem elem_fold_ok :
    ∀ (cs : List XmlElem) (d : List (String × PyVal)),
      (∀ c ∈ cs, ∃ cd, elem_to_dict c = .ok cd) →
      (∀ k v, alistFind k d = some v →
        (∃ l, v = PyVal.plist l) ∨ ∀ c ∈ cs, childKey c ≠ k) →
      ∃ d2, elem_fold d cs = .ok d2 := by
  intro cs
  induction cs with
  | nil => intro d _ _; exact ⟨d, rfl⟩
  | cons c rest ih =>
    intro d hok hinv
    obtain ⟨cd, hcd⟩ := hok c (List.mem_cons_self _ _)
    have hkd : ∀ v, alistFind (childKey c) d = some v → ∃ l, v = PyVal.plist l := by
      intro v hv
      rcases hinv _ _ hv with h | h
      · exact h
      · exact absurd rfl (h c (List.mem_cons_self _ _))
    obtain ⟨d2, hd2, hprop⟩ := setdefaultAppend_ok (childKey c) (.pdict cd) d hkd
    have hstep : elem_fold d (c :: rest) = elem_fold d2 rest := by
      simp only [elem_fold, hcd, hd2]
    rw [hstep]
    apply ih d2 (fun c2 h2 => hok c2 (List.mem_cons_of_mem _ h2))
    intro k v hv
    rcases hprop k v hv with h | ⟨hne, hold⟩
    · exact Or.inl h
    · rcases hinv k v hold with h | h
      · exact Or.inl h
      · exact Or.inr (fun c2 h2 => h c2 (List.mem_cons_of_mem _ h2))

theorem elem_to_dict_ok_of_noCollide :
    ∀ (n : Nat) (e : XmlElem), sizeOf e ≤ n → noCollideB e = true →
      ∃ d, elem_to_dict e = .ok d := by
  intro n
  induction n with
  | zero =>
    intro e hs
    obtain ⟨t, a, tx, cs⟩ := e
    simp only [XmlElem.mk.sizeOf_spec] at hs
    omega
  | succ n ih =>
    intro e hs hnc
    obtain ⟨t, a, tx, cs⟩ := e
    have hsz : sizeOf (XmlElem.mk t a tx cs) = 1 + sizeOf t + sizeOf a + sizeOf tx + sizeOf cs :=
      XmlElem.mk.sizeOf_spec t a tx cs
    have hnc3 : (a.isEmpty || cs.all (fun c => childKey c ≠ "_attrs")) = true ∧
        ((pyStripNB tx).isNone || cs.all (fun c => childKey c ≠ "_text")) = true ∧
        noCollideL cs = true := by
      simpa [noCollideB, Bool.and_eq_true, and_assoc] using hnc
    have hok : ∀ c ∈ cs, ∃ cd, elem_to_dict c = .ok cd := by
      intro c hc
      apply ih c
      · have h1 := List.sizeOf_lt_of_mem hc
        omega
      · exact noCollideL_mem cs hnc3.2.2 c hc
    have hinv : ∀ k v, alistFind k (elemBase a tx) = some v →
        (∃ l, v = PyVal.plist l) ∨ ∀ c ∈ cs, childKey c ≠ k := by
      intro k v hv
      rcases alistFind_elemBase a tx k v hv with ⟨hk, hne⟩ | ⟨hk, hsome⟩
      · subst hk
        rcases Bool.or_eq_true_iff.mp hnc3.1 with hcon | hall
        · rw [hne] at hcon; cases hcon
        · refine Or.inr ?_
          intro c hc
          have := List.all_eq_true.mp hall c hc
          simpa using this
      · subst hk
        rcases Bool.or_eq_true_iff.mp hnc3.2.1 with hcon | hall
        · rw [Option.isNone_iff_eq_none] at hcon
          rw [hcon] at hsome
          cases hsome
        · refine Or.inr ?_
          intro c hc
          have := List.all_eq_true.mp hall c hc
          simpa using this
    obtain ⟨d2, hd2⟩ := elem_fold_ok cs (elemBase a tx) hok hinv
    exact ⟨d2, by simp only [elem_to_dict]; exact hd2⟩

/-- Claim C3 counterexample: a well-formed element combining an attribute
with a child tagged _attrs makes elem_to_dict raise (setdefault returns the
attribute dict and append is called on it), so elem_to_dict is not total on
every finite XML element tree. -/
theorem C3_counterexample :
    elem_to_dict collideElem = .error "AttributeError: append on non-list" := rfl

/-- Claim C3 (amended): elem_to_dict terminates and raises no error on every
finite XML element tree in which no element both has attributes and a child
whose dict key is _attrs, nor both non-blank text and a child whose dict key
is _text; within that collision-free fragment all attributes, text and
children remain optional. -/
theorem C3_elem_to_dict_total (e : XmlElem) (h : noCollideB e = true) :
    ∃ d, elem_to_dict e = .ok d :=
  elem_to_dict_ok_of_noCollide (sizeOf e) e (Nat.le_refl _) h

/-- Witness for the C3 theorem: a concrete collision-free element with
attributes, text and repeated child tags converts without error. -/
theorem C3_elem_to_dict_total_witness :
    noCollideB benignElem = true ∧ ∃ d, elem_to_dict benignElem = .ok d :=
  ⟨rfl, C3_elem_to_dict_total benignElem rfl⟩

theorem iterSelf_eq (c : XmlElem) : iterSelf c = c :: iterList c.children := by
  obtain ⟨t, a, tx, cs⟩ := c
  rfl

theorem childTag_not_handleRef {t : String} (h : famChildTags.contains t = true) :
    handleRefTags.contains t = false := by
  have hm := List.elem_iff.mp h
  fin_cases hm <;> rfl

theorem fatherTag_not_child {t : String} (h : fatherTags.contains t = true) :
    famChildTags.contains t = false := by
  have hm := List.elem_iff.mp h
  fin_cases hm <;> rfl

theorem motherTag_not_child {t : String} (h : motherTags.contains t = true) :
    famChildTags.contains t = false := by
  have hm := List.elem_iff.mp h
  fin_cases hm <;> rfl

/-- On elements whose tag marks a child reference, the code scan (which runs
over c.iter(), the element itself included) agrees with the spec wording
(descendants only): the element itself can never match handle or ref. -/
theorem resolveChildRef_eq_spec (c : XmlElem)
    (h : famChildTags.contains (strip_ns c.tag) = true) :
    resolveChildRef c = resolveChildSpec c := by
  unfold resolveChildRef resolveChildSpec
  cases halist : alistFind "ref" c.attrib with
  | some v => simp [halist]
  | none =>
    simp only [halist, Option.isSome_none, Bool.false_eq_true, if_false]
    rw [iterSelf_eq, List.findSome?_cons, childTag_not_handleRef h]
    simp

theorem famScan_children_aux :
    ∀ (cs : List XmlElem) (acc : FamAcc),
      (cs.foldl famStep acc).children =
        acc.children ++
          (cs.filter (fun c => famChildTags.contains (strip_ns c.tag))).filterMap
            resolveChildRef := by
  intro cs
  induction cs with
  | nil => intro acc; simp
  | cons c rest ih =>
    intro acc
    rw [List.foldl_cons, List.filter_cons]
    by_cases hf : fatherTags.contains (strip_ns c.tag) = true
    · have hnc := fatherTag_not_child hf
      have hstep : (famStep acc c).children = acc.children := by
        unfold famStep
        rw [if_pos hf]
        cases truthyFilter (parentRef c) <;> rfl
      rw [hnc, ih]
      simp only [Bool.false_eq_true, if_false]
      rw [hstep]
    · by_cases hm : motherTags.contains (strip_ns c.tag) = true
      · have hnc := motherTag_not_child hm
        have hstep : (famStep acc c).children = acc.children := by
          unfold famStep
          rw [if_neg hf, if_pos hm]
          cases truthyFilter (parentRef c) <;> rfl
        rw [hnc, ih]
        simp only [Bool.false_eq_true, if_false]
        rw [hstep]
      · by_cases hc : famChildTags.contains (strip_ns c.tag) = true
        · rw [hc, ih]
          simp only [if_true]
          cases hr : resolveChildRef c with
          | some r =>
            have hstep : (famStep acc c).children = acc.children ++ [r] := by
              unfold famStep
              rw [if_neg hf, if_neg hm, if_pos hc, hr]
            rw [hstep, List.filterMap_cons, hr]
            simp
          | none =>
            have hstep : (famStep acc c).children = acc.children := by
              unfold famStep
              rw [if_neg hf, if_neg hm, if_pos hc, hr]
            rw [hstep, List.filterMap_cons, hr]
        · have hstep : famStep acc c = acc := by
            unfold famStep
            rw [if_neg hf, if_neg hm, if_neg hc]
          rw [hstep, ih]
          simp only [hc, Bool.false_eq_true, if_false]

/-- Claim C4: inside parse_families every child-reference element resolves,
in priority order, to the ref attribute on the element, else the trimmed
text of the first descendant in document order tagged handle or ref with
non-blank text, else the element's own trimmed non-blank text; unresolvable
child-reference elements contribute nothing and raise nothing. -/
theorem C4_child_resolution (f : XmlElem) :
    (famScan f).children =
      (f.children.filter (fun c => famChildTags.contains (strip_ns c.tag))).filterMap
        resolveChildSpec := by
  unfold famScan
  rw [famScan_children_aux]
  simp only [List.nil_append]
  apply List.filterMap_congr
  intro c hc
  exact resolveChildRef_eq_spec c (List.mem_filter.mp hc).2

theorem alistContains_of_find {H : String} {m : List (String × α)} {v : α}
    (h : alistFind H m = some v) : alistContains H m = true := by
  simp [alistContains, h]

/-- Effect of the child loop of linkFamily on one person record. -/
theorem childLoop_find (fh : String) (dads : List String) :
    ∀ (chs : List String) (ppl : PeopleMap) (H : String) (p : Person),
      alistFind H ppl = some p →
      alistFind H (chs.foldl (fun ppl ch =>
          if alistContains ch ppl then
            alistUpdate ch (fun q =>
              { q with
                families_as_child := some fh
                parents := q.parents ++ dads }) ppl
          else ppl) ppl) =
        some { p with
          parents := p.parents ++ ((chs.filter (fun c => c == H)).map (fun _ => dads)).flatten
          families_as_child := if chs.contains H then some fh else p.families_as_child } := by
  intro chs
  induction chs with
  | nil =>
    intro ppl H p hf
    simpa using hf
  | cons ch rest ih =>
    intro ppl H p hf
    rw [List.foldl_cons]
    by_cases hch : ch = H
    · subst hch
      rw [if_pos (alistContains_of_find hf)]
      have hf2 : alistFind ch (alistUpdate ch (fun q =>
          { q with families_as_child := some fh, parents := q.parents ++ dads }) ppl) =
          some { p with families_as_child := some fh, parents := p.parents ++ dads } := by
        rw [alistFind_update_self, hf]
        rfl
      rw [ih _ ch _ hf2]
      obtain ⟨h0, r0, n0, e0, a0, par0, c0, fap0, fac0⟩ := p
      simp only [List.filter_cons, List.contains_cons, beq_self_eq_true, Bool.true_or, if_true,
        List.map_cons, List.flatten_cons, List.append_assoc]
      cases hrc : rest.contains ch <;> simp
    · have hne : ¬ (ch == H) = true := by simpa using fun hc => hch (by exact hc)
      have hcont : (ch :: rest).contains H = rest.contains H := by
        simp [List.contains_cons]
        intro hc
        exact absurd hc.symm hch
      have hfilter : (ch :: rest).filter (fun c => c == H) = rest.filter (fun c => c == H) := by
        rw [List.filter_cons]
        simp [hne]
      cases hc2 : alistContains ch ppl
      · rw [if_neg (by simp [hc2])]
        rw [ih ppl H p hf, hfilter, hcont]
      · rw [if_pos rfl]
        have hf2 : alistFind H (alistUpdate ch (fun q =>
            { q with families_as_child := some fh, parents := q.parents ++ dads }) ppl) =
            some p := by
          rw [alistFind_update_ne H ch (fun hx => hch hx.symm)]
          exact hf
        rw [ih _ H _ hf2, hfilter, hcont]

/-- Effect of the parent loop of linkFamily on one person record. -/
theorem parentLoop_find (fh : String) :
    ∀ (ps : List String) (ppl : PeopleMap) (H : String) (p : Person),
      alistFind H ppl = some p →
      alistFind H (ps.foldl (fun ppl parent =>
          if alistContains parent ppl then
            alistUpdate parent (fun q =>
              { q with families_as_parent := q.families_as_parent ++ [fh] }) ppl
          else ppl) ppl) =
        some { p with families_as_parent :=
          p.families_as_parent ++ (ps.filter (fun x => x == H)).map (fun _ => fh) } := by
  intro ps
  induction ps with
  | nil =>
    intro ppl H p hf
    simpa using hf
  | cons x rest ih =>
    intro ppl H p hf
    rw [List.foldl_cons]
    by_cases hx : x = H
    · subst hx
      rw [if_pos (alistContains_of_find hf)]
      have hf2 : alistFind x (alistUpdate x (fun q =>
          { q with families_as_parent := q.families_as_parent ++ [fh] }) ppl) =
          some { p with families_as_parent := p.families_as_parent ++ [fh] } := by
        rw [alistFind_update_self, hf]
        rfl
      rw [ih _ x _ hf2]
      obtain ⟨h0, r0, n0, e0, a0, par0, c0, fap0, fac0⟩ := p
      simp [List.filter_cons, List.append_assoc]
    · have hne : ¬ (x == H) = true := by simpa using fun hc => hx (by exact hc)
      have hfilter : (x :: rest).filter (fun c => c == H) = rest.filter (fun c => c == H) := by
        rw [List.filter_cons]
        simp [hne]
      cases hc2 : alistContains x ppl
      · rw [if_neg (by simp [hc2])]
        rw [ih ppl H p hf, hfilter]
      · rw [if_pos rfl]
        have hf2 : alistFind H (alistUpdate x (fun q =>
            { q with families_as_parent := q.families_as_parent ++ [fh] }) ppl) = some p := by
          rw [alistFind_update_ne H x (fun hy => hx hy.symm)]
          exact hf
        rw [ih _ H _ hf2, hfilter]

/-- Effect of linking one family on one person record. -/
theorem linkFamily_find (st : PeopleMap × FamilyMap) (fh : String) (fam : Family)
    (H : String) (p : Person) (hf : alistFind H st.1 = some p) :
    alistFind H (linkFamily st fh fam).1 = some (famEffect fh fam H p) := by
  unfold linkFamily
  have h1 := childLoop_find fh (optToL fam.father ++ optToL fam.mother) fam.children st.1 H p hf
  have h2 := parentLoop_find fh (optToL fam.father ++ optToL fam.mother) _ H _ h1
  rw [h2]
  unfold famEffect
  obtain ⟨h0, r0, n0, e0, a0, par0, c0, fap0, fac0⟩ := p
  rfl

theorem crossLink_find_aux :
    ∀ (fams : List (String × Family)) (st : PeopleMap × FamilyMap) (H : String) (p : Person),
      alistFind H st.1 = some p →
      alistFind H (fams.foldl (fun s kv => linkFamily s kv.1 kv.2) st).1 =
        some (fams.foldl (fun q kv => famEffect kv.1 kv.2 H q) p) := by
  intro fams
  induction fams with
  | nil =>
    intro st H p hf
    simpa using hf
  | cons kv rest ih =>
    intro st H p hf
    rw [List.foldl_cons, List.foldl_cons]
    exact ih _ H _ (linkFamily_find st kv.1 kv.2 H p hf)

theorem getLast?_cons_eq (x : α) (l : List α) :
    (x :: l).getLast? = (match l.getLast? with
      | some y => some y
      | none => some x) := by
  cases l with
  | nil => rfl
  | cons y l2 =>
    rw [List.getLast?_cons_cons]
    cases hl : (y :: l2).getLast? with
    | some z => rfl
    | none =>
      exfalso
      have : (y :: l2) ≠ [] := by simp
      have hs := List.getLast?_isSome.mpr this
      rw [hl] at hs
      cases hs

theorem lastFamWithChild_cons (H : String) (kv : String × Family)
    (fams : List (String × Family)) :
    lastFamWithChild H (kv :: fams) =
      (match lastFamWithChild H fams with
       | some fh => some fh
       | none => if kv.2.children.contains H then some kv.1 else none) := by
  unfold lastFamWithChild
  rw [List.filter_cons]
  by_cases h : kv.2.children.contains H = true
  · rw [if_pos h, List.map_cons, getLast?_cons_eq, if_pos h]
    cases hl2 : ((List.filter (fun kv => kv.2.children.contains H) fams).map Prod.fst).getLast? <;>
      rfl
  · have hb : kv.2.children.contains H = false := by
      cases hc : kv.2.children.contains H
      · rfl
      · exact absurd hc h
    rw [hb]
    simp only [Bool.false_eq_true, if_false]
    cases hl : ((List.filter (fun kv => kv.2.children.contains H) fams).map Prod.fst).getLast? <;>
      rfl

/-- Accumulated effect of linking a list of families on one person record. -/
theorem foldl_famEffect (H : String) :
    ∀ (fams : List (String × Family)) (p : Person),
      fams.foldl (fun q kv => famEffect kv.1 kv.2 H q) p =
        { p with
          parents := p.parents ++ (fams.map (fun kv =>
            ((kv.2.children.filter (fun c => c == H)).map
              (fun _ => optToL kv.2.father ++ optToL kv.2.mother)).flatten)).flatten
          families_as_parent := p.families_as_parent ++ (fams.map (fun kv =>
            ((optToL kv.2.father ++ optToL kv.2.mother).filter (fun x => x == H)).map
              (fun _ => kv.1))).flatten
          families_as_child := (match lastFamWithChild H fams with
            | some fh => some fh
            | none => p.families_as_child) } := by
  intro fams
  induction fams with
  | nil =>
    intro p
    obtain ⟨h0, r0, n0, e0, a0, par0, c0, fap0, fac0⟩ := p
    simp [lastFamWithChild]
  | cons kv rest ih =>
    intro p
    rw [List.foldl_cons, ih, lastFamWithChild_cons]
    obtain ⟨h0, r0, n0, e0, a0, par0, c0, fap0, fac0⟩ := p
    unfold famEffect
    simp only [List.map_cons, List.flatten_cons, List.append_assoc, Person.mk.injEq,
      true_and, and_true]
    cases hl : lastFamWithChild H rest with
    | some fh2 => simp
    | none => cases hc : kv.2.children.contains H <;> simp

theorem step_keys_pres (ppl : PeopleMap) (k : String) (g : Person → Person) :
    ((if alistContains k ppl then alistUpdate k g ppl else ppl)).map Prod.fst =
      ppl.map Prod.fst := by
  by_cases h : alistContains k ppl = true
  · rw [if_pos h, keys_alistUpdate]
  · rw [if_neg h]

theorem foldl_keys_pres {β : Type} (step : PeopleMap → β → PeopleMap)
    (hstep : ∀ ppl x, (step ppl x).map Prod.fst = ppl.map Prod.fst) :
    ∀ (xs : List β) (ppl : PeopleMap),
      (xs.foldl step ppl).map Prod.fst = ppl.map Prod.fst := by
  intro xs
  induction xs with
  | nil => intro ppl; rfl
  | cons x rest ih =>
    intro ppl
    rw [List.foldl_cons, ih, hstep]

theorem linkFamily_keys (st : PeopleMap × FamilyMap) (fh : String) (fam : Family) :
    ((linkFamily st fh fam).1).map Prod.fst = (st.1).map Prod.fst := by
  unfold linkFamily
  rw [foldl_keys_pres _ (fun ppl x => step_keys_pres ppl x _),
    foldl_keys_pres _ (fun ppl x => step_keys_pres ppl x _)]

theorem crossLink_keys_aux :
    ∀ (fams : List (String × Family)) (st : PeopleMap × FamilyMap),
      ((fams.foldl (fun s kv => linkFamily s kv.1 kv.2) st).1).map Prod.fst =
        (st.1).map Prod.fst := by
  intro fams
  induction fams with
  | nil => intro st; rfl
  | cons kv rest ih =>
    intro st
    rw [List.foldl_cons, ih, linkFamily_keys]

theorem optToL_eq_toList {o : Option String} (h : o ≠ some "") : optToL o = o.toList := by
  cases o with
  | none => rfl
  | some s =>
    have hs : s ≠ "" := fun hc => h (by rw [hc])
    simp [optToL, hs]

/-- Claim C1: after the cross-linking pass, the key set of the people
mapping is unchanged (unknown handles create no records and raise nothing),
and for every person H the linked record extends the original one exactly
by: parents gaining, for each family and each occurrence of H among its
children, the present father followed by the present mother, without
deduplication; families_as_parent gaining the family handle once per
occurrence of H among the present father/mother handles; and
families_as_child set to the last processed family whose children contain H
(unchanged when no family does).  The hypothesis records that family records
never carry a present-but-empty parent handle, which parse_families
guarantees. -/
theorem C1_crosslink_characterization :
    (∀ (people : PeopleMap) (fams : FamilyMap),
      ((crossLink people fams).1).map Prod.fst = people.map Prod.fst) ∧
    (∀ (people : PeopleMap) (fams : FamilyMap) (H : String) (p p1 : Person),
      (∀ kv ∈ fams, kv.2.father ≠ some "" ∧ kv.2.mother ≠ some "") →
      alistFind H people = some p →
      alistFind H (crossLink people fams).1 = some p1 →
      p1.parents = p.parents ++ (fams.map (fun kv => parentsAdd H kv.2)).flatten ∧
      p1.families_as_parent =
        p.families_as_parent ++ (fams.map (fun kv => fapAdd H kv.1 kv.2)).flatten ∧
      p1.families_as_child = (match lastFamWithChild H fams with
        | some fh => some fh
        | none => p.families_as_child)) := by
  constructor
  · intro people fams
    unfold crossLink
    exact crossLink_keys_aux fams (people, fams)
  · intro people fams H p p1 hwf hf hf1
    have hchar := crossLink_find_aux fams (people, fams) H p hf
    unfold crossLink at hf1
    rw [hchar] at hf1
    injection hf1 with hp1
    subst hp1
    rw [foldl_famEffect]
    obtain ⟨h0, r0, n0, e0, a0, par0, c0, fap0, fac0⟩ := p
    refine ⟨?_, ?_, rfl⟩
    · show par0 ++ _ = par0 ++ _
      congr 1
      congr 1
      apply List.map_congr_left
      intro kv hkv
      unfold parentsAdd famParentsPresent
      rw [optToL_eq_toList (hwf kv hkv).1, optToL_eq_toList (hwf kv hkv).2]
    · show fap0 ++ _ = fap0 ++ _
      congr 1
      congr 1
      apply List.map_congr_left
      intro kv hkv
      unfold fapAdd famParentsPresent
      rw [optToL_eq_toList (hwf kv hkv).1, optToL_eq_toList (hwf kv hkv).2]

/-- Witness for the C1 theorem: one family with father F and child C links
C.parents to the father, C.families_as_child to the family, and appends the
family to F.families_as_parent. -/
theorem C1_crosslink_characterization_witness :
    wPersonC1.parents = wPersonC.parents ++ (wFams1.map (fun kv => parentsAdd "C" kv.2)).flatten ∧
    wPersonC1.families_as_parent =
      wPersonC.families_as_parent ++ (wFams1.map (fun kv => fapAdd "C" kv.1 kv.2)).flatten ∧
    wPersonC1.families_as_child = (match lastFamWithChild "C" wFams1 with
      | some fh => some fh
      | none => wPersonC.families_as_child) :=
  C1_crosslink_characterization.2 wPeople1 wFams1 "C" wPersonC wPersonC1
    (by decide) rfl rfl

theorem crossLink_snd (people : PeopleMap) (fams : FamilyMap) :
    (crossLink people fams).2 = fams := by
  unfold crossLink
  have haux : ∀ (l : List (String × Family)) (st : PeopleMap × FamilyMap),
      (l.foldl (fun s kv => linkFamily s kv.1 kv.2) st).2 = st.2 := by
    intro l
    induction l with
    | nil => intro st; rfl
    | cons kv rest ih =>
      intro st
      rw [List.foldl_cons, ih]
      rfl
  exact haux fams (people, fams)

theorem parseAll_inv {root : XmlElem} {pr : Parsed} (h : parseAll root = .ok pr) :
    parse_people (collect_objects root).people = .ok pr.people ∧
    parse_families (collect_objects root).families = .ok pr.families := by
  unfold parseAll at h
  cases h1 : parse_people (collect_objects root).people with
  | error e => simp only [h1] at h; exact Except.noConfusion h
  | ok people =>
  simp only [h1] at h
  cases h2 : parse_families (collect_objects root).families with
  | error e => simp only [h2] at h; exact Except.noConfusion h
  | ok families =>
  simp only [h2] at h
  cases h3 : parse_generic (collect_objects root).events with
  | error e => simp only [h3] at h; exact Except.noConfusion h
  | ok events =>
  simp only [h3] at h
  cases h4 : parse_generic (collect_objects root).places with
  | error e => simp only [h4] at h; exact Except.noConfusion h
  | ok places =>
  simp only [h4] at h
  cases h5 : parse_generic (collect_objects root).media with
  | error e => simp only [h5] at h; exact Except.noConfusion h
  | ok media =>
  simp only [h5] at h
  cases h6 : parse_generic (collect_objects root).sources with
  | error e => simp only [h6] at h; exact Except.noConfusion h
  | ok sources =>
  simp only [h6] at h
  cases h7 : parse_generic (collect_objects root).citations with
  | error e => simp only [h7] at h; exact Except.noConfusion h
  | ok citations =>
  simp only [h7] at h
  cases h8 : parse_generic (collect_objects root).repositories with
  | error e => simp only [h8] at h; exact Except.noConfusion h
  | ok repositories =>
  simp only [h8] at h
  cases h9 : parse_generic (collect_objects root).notes with
  | error e => simp only [h9] at h; exact Except.noConfusion h
  | ok notes =>
  simp only [h9] at h
  cases h10 : parse_generic (collect_objects root).tags with
  | error e => simp only [h10] at h; exact Except.noConfusion h
  | ok tags =>
  simp only [h10] at h
  injection h with h
  subst h
  exact ⟨rfl, rfl⟩

/-- Claim C9: the cross-linking loop of convert mutates person records only;
every family record in the composite output is exactly the record produced
by parse_families. -/
theorem C9_families_frame (root : XmlElem) (rp : Option String) (out : Output)
    (h : convertModel root rp = .ok out) :
    parse_families ((collect_objects root).families) = .ok out.families := by
  unfold convertModel at h
  cases hp : parseAll root with
  | error e => simp only [hp] at h; exact Except.noConfusion h
  | ok pr =>
    simp only [hp] at h
    injection h with h
    subst h
    have hinv := (parseAll_inv hp).2
    show parse_families ((collect_objects root).families) =
      .ok (crossLink pr.people pr.families).2
    rw [crossLink_snd]
    exact hinv

/-- Witness for the C9 theorem on a childless document element. -/
theorem C9_families_frame_witness :
    parse_families ((collect_objects wRootEmpty).families) = .ok w9out.families :=
  C9_families_frame wRootEmpty none w9out rfl

theorem alistUpdate_values {α : Type} {P : α → Prop} :
    ∀ {m : List (String × α)}, (∀ kv ∈ m, P kv.2) →
      ∀ {k : String} {f : α → α}, (∀ v, P v → P (f v)) →
      ∀ kv ∈ alistUpdate k f m, P kv.2 := by
  intro m
  induction m with
  | nil => intro _ k f _ kv hkv; cases hkv
  | cons kv0 rest ih =>
    intro hm k f hf kv hkv
    unfold alistUpdate at hkv
    by_cases hk : kv0.1 = k
    · rw [if_pos hk] at hkv
      cases hkv with
      | head => exact hf _ (hm kv0 (List.mem_cons_self _ _))
      | tail b hmem => exact hm kv (List.mem_cons_of_mem _ hmem)
    · rw [if_neg hk] at hkv
      cases hkv with
      | head => exact hm kv0 (List.mem_cons_self _ _)
      | tail b hmem =>
        exact ih (fun kv2 h2 => hm kv2 (List.mem_cons_of_mem _ h2)) hf kv hmem

theorem dictInsert_values {α : Type} {P : α → Prop} {m : List (String × α)}
    (hm : ∀ kv ∈ m, P kv.2) {k : String} {v : α} (hv : P v) :
    ∀ kv ∈ dictInsert m k v, P kv.2 := by
  intro kv hkv
  unfold dictInsert at hkv
  by_cases hc : alistContains k m = true
  · rw [if_pos hc] at hkv
    exact alistUpdate_values hm (fun _ _ => hv) kv hkv
  · rw [if_neg hc] at hkv
    rcases List.mem_append.mp hkv with hmem | hmem
    · exact hm kv hmem
    · cases hmem with
      | head => exact hv
      | tail b h2 => cases h2

theorem parseWith_values {α : Type} {P : α → Prop}
    (pfx : String) (build : String → XmlElem → Except String α)
    (hbuild : ∀ h e v, build h e = .ok v → P v) :
    ∀ (elems : List XmlElem) (out0 res : List (String × α)),
      (∀ kv ∈ out0, P kv.2) → parseWith pfx build out0 elems = .ok res →
      ∀ kv ∈ res, P kv.2 := by
  intro elems
  induction elems with
  | nil =>
    intro out0 res h0 hp
    simp only [parseWith] at hp
    injection hp with hp
    subst hp
    exact h0
  | cons e rest ih =>
    intro out0 res h0 hp
    simp only [parseWith] at hp
    cases hb : build (pyOrOS (extract_handle e)
        (pfx ++ natStr (out0.length + 1))) e with
    | error msg => simp only [hb] at hp; exact Except.noConfusion hp
    | ok v =>
      simp only [hb] at hp
      exact ih _ res (dictInsert_values h0 (hbuild _ _ _ hb)) hp

theorem buildPerson_children (h : String) (e : XmlElem) (v : Person)
    (hb : buildPerson h e = .ok v) : v.children = [] := by
  unfold buildPerson at hb
  cases h1 : elem_to_dict e with
  | error e2 => simp only [h1] at hb; exact Except.noConfusion hb
  | ok raw =>
  simp only [h1] at hb
  cases h2 : exMap parseNameEl (e.children.filter (fun c => nameTags.contains (strip_ns c.tag))) with
  | error e2 => simp only [h2] at hb; exact Except.noConfusion hb
  | ok names0 =>
  simp only [h2] at hb
  cases h3 : exMap elem_to_dict (e.children.filter (fun c => attrTags.contains (strip_ns c.tag))) with
  | error e2 => simp only [h3] at hb; exact Except.noConfusion hb
  | ok attrs =>
  simp only [h3] at hb
  injection hb with hb
  subst hb
  rfl

theorem foldl_values_pres {β : Type} {P : Person → Prop} (step : PeopleMap → β → PeopleMap)
    (hstep : ∀ ppl x, (∀ kv ∈ ppl, P kv.2) → ∀ kv ∈ step ppl x, P kv.2) :
    ∀ (xs : List β) (ppl : PeopleMap), (∀ kv ∈ ppl, P kv.2) →
      ∀ kv ∈ xs.foldl step ppl, P kv.2 := by
  intro xs
  induction xs with
  | nil => intro ppl h0; exact h0
  | cons x rest ih =>
    intro ppl h0
    rw [List.foldl_cons]
    exact ih _ (hstep ppl x h0)

theorem update_step_values {P : Person → Prop} (ppl : PeopleMap) (k : String)
    (g : Person → Person) (hg : ∀ p, P p → P (g p)) (hm : ∀ kv ∈ ppl, P kv.2) :
    ∀ kv ∈ (if alistContains k ppl then alistUpdate k g ppl else ppl), P kv.2 := by
  by_cases hc : alistContains k ppl = true
  · rw [if_pos hc]
    exact alistUpdate_values hm hg
  · rw [if_neg hc]
    exact hm

theorem linkFamily_children_nil (st : PeopleMap × FamilyMap) (fh : String) (fam : Family)
    (hm : ∀ kv ∈ st.1, kv.2.children = []) :
    ∀ kv ∈ (linkFamily st fh fam).1, kv.2.children = [] := by
  simp only [linkFamily]
  refine @foldl_values_pres _ (fun p => p.children = []) _ ?_ _ _ ?_
  · intro ppl x hmem
    refine @update_step_values (fun p => p.children = []) ppl x _ ?_ hmem
    intro p hp
    exact hp
  · refine @foldl_values_pres _ (fun p => p.children = []) _ ?_ _ _ hm
    intro ppl x hmem
    refine @update_step_values (fun p => p.children = []) ppl x _ ?_ hmem
    intro p hp
    exact hp

theorem crossLink_children_nil :
    ∀ (fams : List (String × Family)) (st : PeopleMap × FamilyMap),
      (∀ kv ∈ st.1, kv.2.children = []) →
      ∀ kv ∈ (fams.foldl (fun s kv => linkFamily s kv.1 kv.2) st).1, kv.2.children = [] := by
  intro fams
  induction fams with
  | nil => intro st h0; exact h0
  | cons kv rest ih =>
    intro st h0
    rw [List.foldl_cons]
    exact ih _ (linkFamily_children_nil st kv.1 kv.2 h0)

/-- Claim C10: in the composite object returned by convert, every person
record has an empty children sequence: parse_people initializes it empty and
no later stage, the cross-linking pass included, ever appends to it. -/
theorem C10_person_children_empty (root : XmlElem) (rp : Option String) (out : Output)
    (H : String) (p : Person) (h : convertModel root rp = .ok out)
    (hf : alistFind H out.people = some p) : p.children = [] := by
  unfold convertModel at h
  cases hp : parseAll root with
  | error e => simp only [hp] at h; exact Except.noConfusion h
  | ok pr =>
    simp only [hp] at h
    injection h with h
    subst h
    have hpe := (parseAll_inv hp).1
    have hvals : ∀ kv ∈ pr.people, kv.2.children = [] := by
      apply parseWith_values "person_" buildPerson buildPerson_children
        ((collect_objects root).people) [] pr.people (fun kv hkv => absurd hkv (by simp))
      exact hpe
    have hlinked : ∀ kv ∈ (crossLink pr.people pr.families).1, kv.2.children = [] := by
      unfold crossLink
      exact crossLink_children_nil pr.families (pr.people, pr.families) hvals
    exact hlinked (H, p) (alistFind_mem hf)

/-- Witness for the C10 theorem: the person record produced for a bare
person element has empty children. -/
theorem C10_person_children_empty_witness : w10person.children = [] :=
  C10_person_children_empty wRootPerson none w10out "I1" w10person rfl rfl

theorem alistFind_append (k : String) (a b : List (String × α)) :
    alistFind k (a ++ b) = (match alistFind k a with
      | some v => some v
      | none => alistFind k b) := by
  induction a with
  | nil => rfl
  | cons kv rest ih =>
    by_cases hk : kv.1 = k
    · simp [alistFind, hk]
    · simp only [List.cons_append, alistFind, hk, if_neg, not_false_iff]
      exact ih

theorem alistFind_of_not_contains {k : String} {a : List (String × α)}
    (h : alistContains k a = false) : alistFind k a = none := by
  cases hf : alistFind k a with
  | none => rfl
  | some v =>
    exfalso
    rw [alistContains, hf] at h
    cases h

theorem alistContains_append_right {k : String} {a b : List (String × α)}
    (h : alistContains k b = true) : alistContains k (a ++ b) = true := by
  rw [alistContains, alistFind_append]
  cases hf : alistFind k a with
  | some v => rfl
  | none => rw [alistContains] at h; exact h

theorem alistContains_cons_of {k : String} {kv : String × α} {c : List (String × α)}
    (h : alistContains k c = true) : alistContains k (kv :: c) = true := by
  rw [alistContains, alistFind]
  by_cases hk : kv.1 = k
  · rw [if_pos hk]; rfl
  · rw [if_neg hk]; rw [alistContains] at h; exact h

theorem setChildren_append_of_not_contains {h : String} {ns : List NodeRef} :
    ∀ {a b : Cache}, alistContains h a = false →
      setChildren h ns (a ++ b) = a ++ setChildren h ns b := by
  intro a
  induction a with
  | nil => intro b _; rfl
  | cons kv rest ih =>
    intro b ha
    obtain ⟨k1, nd1⟩ := kv
    have hk : k1 ≠ h := by
      intro hc
      rw [alistContains, alistFind, if_pos hc] at ha
      cases ha
    have ha2 : alistContains h rest = false := by
      rw [alistContains] at ha ⊢
      rw [alistFind, if_neg hk] at ha
      exact ha
    show setChildren h ns ((k1, nd1) :: (rest ++ b)) = (k1, nd1) :: (rest ++ setChildren h ns b)
    simp only [setChildren]
    rw [if_neg hk, ih ha2]

theorem buildList_ext {recur : String → Cache → Option (NodeRef × Cache)}
    (hrec : CacheExt recur) :
    ∀ (l : List String) (c : Cache) (ns : List NodeRef) (c2 : Cache),
      buildList recur l c = some (ns, c2) →
      ∃ pre, c2 = pre ++ c ∧ ∀ k ∈ pre.map Prod.fst, alistContains k c = false := by
  intro l
  induction l with
  | nil =>
    intro c ns c2 hb
    simp only [buildList] at hb
    injection hb with hb
    cases hb
    exact ⟨[], rfl, by intro k hk; cases hk⟩
  | cons ch rest ih =>
    intro c ns c2 hb
    simp only [buildList] at hb
    cases h1 : recur ch c with
    | none => simp only [h1] at hb; exact Option.noConfusion hb
    | some nc =>
      obtain ⟨n, c1⟩ := nc
      simp only [h1] at hb
      cases h2 : buildList recur rest c1 with
      | none => simp only [h2] at hb; exact Option.noConfusion hb
      | some nsc =>
        obtain ⟨ns2, c3⟩ := nsc
        simp only [h2] at hb
        injection hb with hb
        have hc2 : c2 = c3 := (congrArg Prod.snd hb).symm
        obtain ⟨pre1, hc1, hf1⟩ := hrec ch c n c1 h1
        obtain ⟨pre2, hc3, hf2⟩ := ih c1 ns2 c3 h2
        refine ⟨pre2 ++ pre1, ?_, ?_⟩
        · rw [hc2, hc3, hc1, List.append_assoc]
        · intro k hk
          rw [List.map_append] at hk
          rcases List.mem_append.mp hk with hm | hm
          · have hfr := hf2 k hm
            rw [hc1] at hfr
            cases hcon : alistContains k c with
            | false => rfl
            | true =>
              exfalso
              rw [alistContains_append_right hcon] at hfr
              cases hfr
          · exact hf1 k hm

theorem buildStep_ext (people : PeopleMap) (fams : FamilyMap)
    {recur : String → Cache → Option (NodeRef × Cache)} (hrec : CacheExt recur) :
    CacheExt (buildStep people fams recur) := by
  intro h c r c2 hb
  unfold buildStep at hb
  cases hfp : alistFind h people with
  | none =>
    simp only [hfp] at hb
    injection hb with hb
    have hcc : c2 = c := (congrArg Prod.snd hb).symm
    exact ⟨[], by rw [hcc]; simp, by intro k hk; cases hk⟩
  | some p =>
    simp only [hfp] at hb
    by_cases hcache : alistContains h c = true
    · rw [if_pos hcache] at hb
      injection hb with hb
      have hcc : c2 = c := (congrArg Prod.snd hb).symm
      exact ⟨[], by rw [hcc]; simp, by intro k hk; cases hk⟩
    · rw [if_neg hcache] at hb
      cases hbl : buildList recur (dedupSeen [] (gatherChildren fams p))
          ((h, ⟨displayName p, "", []⟩) :: c) with
      | none => simp only [hbl] at hb; exact Option.noConfusion hb
      | some nsc =>
        obtain ⟨ns, cB⟩ := nsc
        simp only [hbl] at hb
        injection hb with hb
        have hcc : c2 = setChildren h ns cB := (congrArg Prod.snd hb).symm
        obtain ⟨pre, hpre, hfresh⟩ := buildList_ext hrec _ _ _ _ hbl
        have hnotpre : alistContains h pre = false := by
          cases hcp : alistContains h pre with
          | false => rfl
          | true =>
            exfalso
            rw [alistContains, alistFind_isSome_iff_keys] at hcp
            have hmem := List.elem_iff.mp hcp
            have := hfresh h hmem
            rw [alistContains, alistFind] at this
            simp at this
        have hset : setChildren h ns cB =
            pre ++ ((h, ⟨displayName p, "", ns⟩) :: c) := by
          rw [hpre, setChildren_append_of_not_contains hnotpre]
          congr 1
          show setChildren h ns ((h, ⟨displayName p, "", []⟩) :: c) = _
          simp [setChildren]
        refine ⟨pre ++ [(h, ⟨displayName p, "", ns⟩)], ?_, ?_⟩
        · rw [hcc, hset, List.append_assoc]
          rfl
        · intro k hk
          rw [List.map_append] at hk
          rcases List.mem_append.mp hk with hm | hm
          · have hfr := hfresh k hm
            cases hcon : alistContains k c with
            | false => rfl
            | true =>
              exfalso
              rw [alistContains_cons_of hcon] at hfr
              cases hfr
          · have hkh : k = h := by
              cases hm with
              | head => rfl
              | tail b h2 => cases h2
            rw [hkh]
            cases hcx : alistContains h c with
            | false => rfl
            | true => exact absurd hcx hcache

theorem buildFuel_ext (people : PeopleMap) (fams : FamilyMap) :
    ∀ fuel : Nat, CacheExt (buildFuel people fams fuel) := by
  intro fuel
  induction fuel with
  | zero => intro h c r c2 hb; exact Option.noConfusion hb
  | succ fuel ih => exact buildStep_ext people fams ih

theorem countP_le_of_imp {l : List β} {p q : β → Bool}
    (h : ∀ x ∈ l, p x = true → q x = true) : l.countP p ≤ l.countP q := by
  induction l with
  | nil => exact Nat.le_refl _
  | cons x rest ih =>
    have hrest := ih (fun y hy => h y (List.mem_cons_of_mem _ hy))
    rw [List.countP_cons, List.countP_cons]
    by_cases hp : p x = true
    · rw [if_pos hp, if_pos (h x (List.mem_cons_self _ _) hp)]
      omega
    · rw [if_neg hp]
      by_cases hq : q x = true
      · rw [if_pos hq]
        omega
      · rw [if_neg hq]
        omega

theorem countP_lt_of_witness {l : List β} {p q : β → Bool}
    (himp : ∀ x ∈ l, q x = true → p x = true)
    {x0 : β} (hx0 : x0 ∈ l) (hp : p x0 = true) (hq : q x0 = false) :
    l.countP q < l.countP p := by
  induction l with
  | nil => cases hx0
  | cons y rest ih =>
    rw [List.countP_cons, List.countP_cons]
    cases hx0 with
    | head =>
      rw [if_pos hp, if_neg (by rw [hq]; intro hx; cases hx)]
      have := countP_le_of_imp (fun z hz => himp z (List.mem_cons_of_mem _ hz))
      omega
    | tail b hmem =>
      have hlt := ih (fun z hz => himp z (List.mem_cons_of_mem _ hz)) hmem
      by_cases hqy : q y = true
      · rw [if_pos hqy, if_pos (himp y (List.mem_cons_self _ _) hqy)]
        omega
      · rw [if_neg hqy]
        by_cases hpy : p y = true
        · rw [if_pos hpy]
          omega
        · rw [if_neg hpy]
          omega

theorem missingCount_le_of_ext (people : PeopleMap) {c c2 : Cache}
    (h : ∀ k, alistContains k c = true → alistContains k c2 = true) :
    missingCount people c2 ≤ missingCount people c := by
  unfold missingCount
  apply countP_le_of_imp
  intro kv _ hkv
  cases hcon : alistContains kv.1 c with
  | false => simp [hcon]
  | true =>
    exfalso
    have := h kv.1 hcon
    rw [this] at hkv
    cases hkv

theorem missingCount_append (people : PeopleMap) (pre c : Cache) :
    missingCount people (pre ++ c) ≤ missingCount people c := by
  apply missingCount_le_of_ext
  intro k hk
  exact alistContains_append_right hk

theorem missingCount_insert_lt (people : PeopleMap) {c : Cache} {handle : String}
    {p : Person} (hfind : alistFind handle people = some p)
    (hnc : alistContains handle c = false) (nd : NodeData) :
    missingCount people ((handle, nd) :: c) < missingCount people c := by
  unfold missingCount
  have himp : ∀ kv ∈ people, (!alistContains kv.1 ((handle, nd) :: c)) = true →
      (!alistContains kv.1 c) = true := by
    intro kv _ hq
    cases hcon : alistContains kv.1 c with
    | false => rfl
    | true =>
      exfalso
      rw [alistContains_cons_of hcon] at hq
      cases hq
  have hp0 : (!alistContains (handle, p).1 c) = true := by
    show (!alistContains handle c) = true
    rw [hnc]
    rfl
  have hq0 : (!alistContains (handle, p).1 ((handle, nd) :: c)) = false := by
    show (!alistContains handle ((handle, nd) :: c)) = false
    have hc2 : alistContains handle ((handle, nd) :: c) = true := by
      rw [alistContains, alistFind, if_pos rfl]
      rfl
    rw [hc2]
    rfl
  exact countP_lt_of_witness himp (alistFind_mem hfind) hp0 hq0

theorem buildList_isSome_of (people : PeopleMap) (fams : FamilyMap) (fuel : Nat)
    (hrec : ∀ (h : String) (c : Cache), missingCount people c < fuel →
      (buildFuel people fams fuel h c).isSome = true) :
    ∀ (l : List String) (c : Cache), missingCount people c < fuel →
      (buildList (buildFuel people fams fuel) l c).isSome = true := by
  intro l
  induction l with
  | nil => intro c _; rfl
  | cons ch rest ih =>
    intro c hm
    have h1 := hrec ch c hm
    cases hb : buildFuel people fams fuel ch c with
    | none => rw [hb] at h1; cases h1
    | some nc =>
      obtain ⟨n, c1⟩ := nc
      obtain ⟨pre, hpre, _⟩ := buildFuel_ext people fams fuel ch c n c1 hb
      have hm1 : missingCount people c1 < fuel := by
        have hle := missingCount_append people pre c
        rw [← hpre] at hle
        omega
      have h2 := ih c1 hm1
      simp only [buildList, hb]
      cases hb2 : buildList (buildFuel people fams fuel) rest c1 with
      | none => rw [hb2] at h2; cases h2
      | some nsc =>
        obtain ⟨ns2, c2⟩ := nsc
        rfl

theorem buildFuel_isSome (people : PeopleMap) (fams : FamilyMap) :
    ∀ (fuel : Nat) (h : String) (c : Cache), missingCount people c < fuel →
      (buildFuel people fams fuel h c).isSome = true := by
  intro fuel
  induction fuel with
  | zero => intro h c hm; omega
  | succ fuel ih =>
    intro h c hm
    show (buildStep people fams (buildFuel people fams fuel) h c).isSome = true
    cases hfp : alistFind h people with
    | none => simp [buildStep, hfp]
    | some p =>
      cases hcache : alistContains h c with
      | true => simp [buildStep, hfp, hcache]
      | false =>
        have hlt := missingCount_insert_lt people hfp hcache ⟨displayName p, "", []⟩
        have hm1 : missingCount people ((h, ⟨displayName p, "", []⟩) :: c) < fuel := by omega
        have hbl := buildList_isSome_of people fams fuel (fun h2 c2 hm2 => ih h2 c2 hm2)
          (dedupSeen [] (gatherChildren fams p)) ((h, ⟨displayName p, "", []⟩) :: c) hm1
        cases hb : buildList (buildFuel people fams fuel)
            (dedupSeen [] (gatherChildren fams p)) ((h, ⟨displayName p, "", []⟩) :: c) with
        | none => rw [hb] at hbl; cases hbl
        | some nsc =>
          obtain ⟨ns, cB⟩ := nsc
          simp [buildStep, hfp, hcache, hb]

theorem buildFuel_refName (people : PeopleMap) (fams : FamilyMap) (fuel : Nat)
    (h : String) (c : Cache) (r : NodeRef) (c2 : Cache) (hne : h ≠ "")
    (hb : buildFuel people fams fuel h c = some (r, c2)) : refName r = h := by
  cases fuel with
  | zero => exact Option.noConfusion hb
  | succ fuel =>
    have hb2 : buildStep people fams (buildFuel people fams fuel) h c = some (r, c2) := hb
    unfold buildStep at hb2
    cases hfp : alistFind h people with
    | none =>
      simp only [hfp] at hb2
      injection hb2 with hb2
      have hr : r = .leaf (pyOrS h "<Unknown>") := (congrArg Prod.fst hb2).symm
      rw [hr]
      show pyOrS h "<Unknown>" = h
      unfold pyOrS
      rw [if_neg hne]
    | some p =>
      simp only [hfp] at hb2
      by_cases hcache : alistContains h c = true
      · rw [if_pos hcache] at hb2
        injection hb2 with hb2
        have hr : r = .ref h := (congrArg Prod.fst hb2).symm
        rw [hr]
        rfl
      · rw [if_neg hcache] at hb2
        cases hbl : buildList (buildFuel people fams fuel)
            (dedupSeen [] (gatherChildren fams p)) ((h, ⟨displayName p, "", []⟩) :: c) with
        | none => simp only [hbl] at hb2; exact Option.noConfusion hb2
        | some nsc =>
          obtain ⟨ns, cB⟩ := nsc
          simp only [hbl] at hb2
          injection hb2 with hb2
          have hr : r = .ref h := (congrArg Prod.fst hb2).symm
          rw [hr]
          rfl

theorem buildList_refNames (people : PeopleMap) (fams : FamilyMap) (fuel : Nat) :
    ∀ (l : List String) (c : Cache) (ns : List NodeRef) (c2 : Cache),
      (∀ x ∈ l, x ≠ "") →
      buildList (buildFuel people fams fuel) l c = some (ns, c2) →
      ns.map refName = l := by
  intro l
  induction l with
  | nil =>
    intro c ns c2 _ hb
    simp only [buildList] at hb
    injection hb with hb
    have hns : ns = [] := (congrArg Prod.fst hb).symm
    rw [hns]
    rfl
  | cons ch rest ih =>
    intro c ns c2 hall hb
    simp only [buildList] at hb
    cases h1 : buildFuel people fams fuel ch c with
    | none => simp only [h1] at hb; exact Option.noConfusion hb
    | some nc =>
      obtain ⟨n, c1⟩ := nc
      simp only [h1] at hb
      cases h2 : buildList (buildFuel people fams fuel) rest c1 with
      | none => simp only [h2] at hb; exact Option.noConfusion hb
      | some nsc =>
        obtain ⟨ns2, c3⟩ := nsc
        simp only [h2] at hb
        injection hb with hb
        have hns : ns = n :: ns2 := (congrArg Prod.fst hb).symm
        rw [hns, List.map_cons]
        rw [buildFuel_refName people fams fuel ch c n c1 (hall ch (List.mem_cons_self _ _)) h1]
        rw [ih c1 ns2 c3 (fun x hx => hall x (List.mem_cons_of_mem _ hx)) h2]

theorem dedupSeen_ne : ∀ (l seen : List String), ∀ x ∈ dedupSeen seen l, x ≠ "" := by
  intro l
  induction l with
  | nil => intro seen x hx; cases hx
  | cons ch rest ih =>
    intro seen x hx
    unfold dedupSeen at hx
    by_cases hc : ch = "" ∨ seen.contains ch = true
    · rw [if_pos hc] at hx
      exact ih seen x hx
    · rw [if_neg hc] at hx
      cases hx with
      | head => exact fun hcon => hc (Or.inl hcon)
      | tail b hmem => exact ih (ch :: seen) x hmem

theorem missingCount_nil (people : PeopleMap) : missingCount people [] = people.length := by
  unfold missingCount
  induction people with
  | nil => rfl
  | cons kv rest ih =>
    rw [List.countP_cons, ih]
    simp [alistContains, alistFind]

theorem buildStep_cache_entry (people : PeopleMap) (fams : FamilyMap) (fuel : Nat)
    (handle : String) (c : Cache) (p : Person) (r : NodeRef) (c2 : Cache)
    (hfp : alistFind handle people = some p)
    (hnc : alistContains handle c = false)
    (hb : buildFuel people fams (fuel + 1) handle c = some (r, c2)) :
    ∃ nd, alistFind handle c2 = some nd ∧
      nd.children.map refName = dedupSeen [] (gatherChildren fams p) := by
  have hb2 : buildStep people fams (buildFuel people fams fuel) handle c = some (r, c2) := hb
  unfold buildStep at hb2
  simp only [hfp] at hb2
  rw [if_neg (by rw [hnc]; intro hx; cases hx)] at hb2
  cases hbl : buildList (buildFuel people fams fuel)
      (dedupSeen [] (gatherChildren fams p)) ((handle, ⟨displayName p, "", []⟩) :: c) with
  | none => simp only [hbl] at hb2; exact Option.noConfusion hb2
  | some nsc =>
    obtain ⟨ns, cB⟩ := nsc
    simp only [hbl] at hb2
    injection hb2 with hb2
    have hcc : c2 = setChildren handle ns cB := (congrArg Prod.snd hb2).symm
    obtain ⟨pre, hpre, hfresh⟩ := buildList_ext (buildFuel_ext people fams fuel) _ _ _ _ hbl
    have hnotpre : alistContains handle pre = false := by
      cases hcp : alistContains handle pre with
      | false => rfl
      | true =>
        exfalso
        rw [alistContains, alistFind_isSome_iff_keys] at hcp
        have hmem := List.elem_iff.mp hcp
        have hfr := hfresh handle hmem
        rw [alistContains, alistFind, if_pos rfl] at hfr
        simp at hfr
    refine ⟨⟨displayName p, "", ns⟩, ?_, ?_⟩
    · rw [hcc, hpre, setChildren_append_of_not_contains hnotpre, alistFind_append,
        alistFind_of_not_contains hnotpre]
      simp [setChildren, alistFind]
    · exact buildList_refNames people fams fuel _ _ _ _
        (dedupSeen_ne (gatherChildren fams p) []) hbl

/-- Claim C2: the tree builder is total, fuel equal to the number of person
records plus one always suffices because each known handle is cached before
the recursion into its children and any later encounter returns the cached
node, so build_treant_tree terminates and returns a finite structure on
every input, cyclic family graphs included; and within one node the gathered
child handles are deduplicated with the first occurrence winning. -/
theorem C2_tree_total_and_dedup :
    (∀ (people : PeopleMap) (fams : FamilyMap) (root : Option String),
      (build_treant_tree people fams root).isSome = true) ∧
    (∀ (people : PeopleMap) (fams : FamilyMap) (fuel : Nat) (handle : String) (cache : Cache)
      (p : Person) (r : NodeRef) (c2 : Cache),
      alistFind handle people = some p →
      alistContains handle cache = false →
      buildFuel people fams (fuel + 1) handle cache = some (r, c2) →
      ∃ nd, alistFind handle c2 = some nd ∧
        nd.children.map refName = dedupSeen [] (gatherChildren fams p)) := by
  constructor
  · intro people fams root
    have hmb : missingCount people [] < treeFuel people := by
      rw [missingCount_nil]
      unfold treeFuel
      omega
    unfold build_treant_tree
    by_cases ht : pyTruthyO root = true
    · rw [if_pos ht]
      have hs := buildFuel_isSome people fams (treeFuel people) (root.getD "") [] hmb
      cases hb : buildFuel people fams (treeFuel people) (root.getD "") [] with
      | none => rw [hb] at hs; cases hs
      | some rc => simp [hb]
    · rw [if_neg ht]
      cases hroots : rootCandidates people with
      | nil =>
        show ((buildList (buildFuel people fams (treeFuel people)) [] []).map
          (fun rc => (TreeRoot.pseudoRoot rc.1, rc.2))).isSome = true
        rfl
      | cons r rs =>
        cases rs with
        | nil =>
          show ((buildFuel people fams (treeFuel people) r []).map
            (fun rc => (TreeRoot.node rc.1, rc.2))).isSome = true
          have hs := buildFuel_isSome people fams (treeFuel people) r [] hmb
          cases hb : buildFuel people fams (treeFuel people) r [] with
          | none => rw [hb] at hs; cases hs
          | some rc => simp [hb]
        | cons r2 rs2 =>
          show ((buildList (buildFuel people fams (treeFuel people)) (r :: r2 :: rs2) []).map
            (fun rc => (TreeRoot.pseudoRoot rc.1, rc.2))).isSome = true
          have hs := buildList_isSome_of people fams (treeFuel people)
            (fun h2 c2 hm2 => buildFuel_isSome people fams (treeFuel people) h2 c2 hm2)
            (r :: r2 :: rs2) [] hmb
          cases hb : buildList (buildFuel people fams (treeFuel people)) (r :: r2 :: rs2) [] with
          | none => rw [hb] at hs; cases hs
          | some rc => simp [hb]
  · intro people fams fuel handle cache p r c2 hfp hnc hb
    exact buildStep_cache_entry people fams fuel handle cache p r c2 hfp hnc hb

/-- Witness for the C2 theorem: the cyclic two-person graph (A parent of B,
B parent of A) with the duplicated child B and the unknown child C builds to
completion, and the node cached for A carries exactly the deduplicated
children B and C. -/
theorem C2_tree_total_and_dedup_witness :
    ∃ nd, alistFind "A" cycCache = some nd ∧
      nd.children.map refName = dedupSeen [] (gatherChildren cycFams cycPerA) :=
  C2_tree_total_and_dedup.2 cycPeople cycFams 2 "A" [] cycPerA (.ref "A") cycCache
    rfl rfl rfl
